import Mathlib

/-!
# jphsd/rand : pseudo-random sources

Shallow embedding of `sources.go`.  A `uint64` is a natural number below `2^64`;
every wrapping operation of the Go code carries an explicit `% 2^64`.  A method
with a pointer receiver becomes a function from the receiver's state to the
returned value paired with the receiver's new state.
-/

namespace Rand

/-! ## Machine integers and `math/bits` -/

/-- Conversion `uint64(seed)` of an `int64`: the raw two's complement bit pattern. -/
def toUint64 (i : Int) : Nat := (i % 2 ^ 64).toNat

/-- Conversion `int64(u)` of a `uint64`: the bit pattern read as two's complement. -/
def toInt64 (u : Nat) : Int :=
  if u % 2 ^ 64 < 2 ^ 63 then ((u % 2 ^ 64 : Nat) : Int) else ((u % 2 ^ 64 : Nat) : Int) - 2 ^ 64

/-- Go `bits.RotateLeft64(x, k)`: with `s = uint(k) & 63` the value `x<<s | x>>(64-s)`,
the left shift wrapping at 64 bits.  A negative `k` rotates right. -/
def RotateLeft64 (x : Nat) (k : Int) : Nat :=
  let s := (k % 64).toNat
  ((x <<< s) % 2 ^ 64) ||| (x >>> (64 - s))

/-- Go `bits.Mul64(x, y)`: the full 128-bit product as `(hi, lo)`. -/
def Mul64 (x y : Nat) : Nat × Nat := ((x * y) / 2 ^ 64, (x * y) % 2 ^ 64)

/-- Go `bits.Add64(x, y, carry)`: the 64-bit sum and the carry out, as `(sum, carryOut)`. -/
def Add64 (x y carry : Nat) : Nat × Nat := ((x + y + carry) % 2 ^ 64, (x + y + carry) / 2 ^ 64)

/-! ## Constants -/

/-- The constant `MaxUint63 = (1 << 63) - 1`. -/
def MaxUint63 : Nat := (1 <<< 63) - 1

def mulHi : Nat := 0x2360ed051fc65da4
def mulLo : Nat := 0x4385df649fccf645
def incHi : Nat := 0x5851f42d4c957f2d
def incLo : Nat := 0x14057b7ef767814f

/-! ## SplitMix64 -/

/-- The type `SplitMix64Source` is a single `uint64`. -/
abbrev SplitMix64Source := Nat

/-- Method `SplitMix64Source.Seed`: `*s = SplitMix64Source(seed)`. -/
def SplitMix64Source.Seed (_s : SplitMix64Source) (seed : Int) : SplitMix64Source :=
  toUint64 seed

/-- Method `SplitMix64Source.Uint64`: the returned value and the new state. -/
def SplitMix64Source.Uint64 (s : SplitMix64Source) : Nat × SplitMix64Source :=
  let s1 := (s + 0x9e3779b97f4a7c15) % 2 ^ 64
  let z := s1
  let z := ((z ^^^ (z >>> 30)) * 0xbf58476d1ce4e5B9) % 2 ^ 64
  let z := ((z ^^^ (z >>> 27)) * 0x94d049bb133111eB) % 2 ^ 64
  let z := z ^^^ (z >>> 31)
  (z, s1)

/-- Method `SplitMix64Source.Int63`: `int64(s.Uint64() & MaxUint63)`. -/
def SplitMix64Source.Int63 (s : SplitMix64Source) : Int × SplitMix64Source :=
  let r := SplitMix64Source.Uint64 s
  (toInt64 (r.1 &&& MaxUint63), r.2)

/-! ## XOshiro256 -/

/-- The type `XOshiro256Source` is `[4]uint64`. -/
structure XOshiro256Source where
  s0 : Nat
  s1 : Nat
  s2 : Nat
  s3 : Nat
  deriving DecidableEq, Repr

/-- Method `XOshiro256Source.Seed`: four successive draws of a SplitMix64 seeded with `seed`. -/
def XOshiro256Source.Seed (_s : XOshiro256Source) (seed : Int) : XOshiro256Source :=
  let sm64 : SplitMix64Source := 0
  let sm64 := SplitMix64Source.Seed sm64 seed
  let r0 := SplitMix64Source.Uint64 sm64
  let r1 := SplitMix64Source.Uint64 r0.2
  let r2 := SplitMix64Source.Uint64 r1.2
  let r3 := SplitMix64Source.Uint64 r2.2
  ⟨r0.1, r1.1, r2.1, r3.1⟩

/-- Method `XOshiro256Source.Uint64`: the returned value and the new state. -/
def XOshiro256Source.Uint64 (s : XOshiro256Source) : Nat × XOshiro256Source :=
  let z := (RotateLeft64 ((s.s1 * 5) % 2 ^ 64) 7 * 9) % 2 ^ 64
  let t := (s.s1 <<< 17) % 2 ^ 64
  let a2 := s.s2 ^^^ s.s0
  let a3 := s.s3 ^^^ s.s1
  let a1 := s.s1 ^^^ a2
  let a0 := s.s0 ^^^ a3
  let a2 := a2 ^^^ t
  let a3 := RotateLeft64 a3 45
  (z, ⟨a0, a1, a2, a3⟩)

/-- Method `XOshiro256Source.Int63`: `int64(s.Uint64() & MaxUint63)`. -/
def XOshiro256Source.Int63 (s : XOshiro256Source) : Int × XOshiro256Source :=
  let r := XOshiro256Source.Uint64 s
  (toInt64 (r.1 &&& MaxUint63), r.2)

/-- The body of the inner loop of `Jump` and `LongJump` for bit `b` of the table word `w`:
the accumulator `acc` takes the current state when the bit is set, then the receiver
steps once.  The pair is `(acc, receiver)`. -/
def jumpBit (w b : Nat) (p : XOshiro256Source × XOshiro256Source) :
    XOshiro256Source × XOshiro256Source :=
  let acc := p.1
  let s := p.2
  let acc :=
    if w &&& ((1 <<< b) % 2 ^ 64) ≠ 0 then
      (⟨acc.s0 ^^^ s.s0, acc.s1 ^^^ s.s1, acc.s2 ^^^ s.s2, acc.s3 ^^^ s.s3⟩ : XOshiro256Source)
    else acc
  (acc, (XOshiro256Source.Uint64 s).2)

/-- The inner loop `for b := 0; b < 64; b++` over one table word. -/
def jumpWord (w : Nat) (p : XOshiro256Source × XOshiro256Source) :
    XOshiro256Source × XOshiro256Source :=
  (List.range 64).foldl (fun q b => jumpBit w b q) p

/-- The two nested loops of `Jump` and `LongJump` over the table `jbits`, started with the
zero accumulator.  The pair is `(returned state, receiver state)`. -/
def jumpLoop (jbits : List Nat) (s : XOshiro256Source) : XOshiro256Source × XOshiro256Source :=
  jbits.foldl (fun q w => jumpWord w q) (⟨0, 0, 0, 0⟩, s)

/-- The table `jbits` of `Jump`. -/
def jumpBits : List Nat :=
  [0x180ec6d33cfd0aba, 0xd5a61266f0c9392c, 0xa9582618e03fc9aa, 0x39abdc4529b1661c]

/-- The table `jbits` of `LongJump`. -/
def longJumpBits : List Nat :=
  [0x76e15d3efefdcbbf, 0xc5004e441c522fb3, 0x77710069854ee241, 0x39109bb02acbe635]

/-- Method `XOshiro256Source.Jump`: the returned new source paired with the receiver's state. -/
def XOshiro256Source.Jump (s : XOshiro256Source) : XOshiro256Source × XOshiro256Source :=
  jumpLoop jumpBits s

/-- Method `XOshiro256Source.LongJump`: the returned new source paired with the receiver's state. -/
def XOshiro256Source.LongJump (s : XOshiro256Source) : XOshiro256Source × XOshiro256Source :=
  jumpLoop longJumpBits s

/-! ## PCG -/

/-- The type `PCGSource` is `[2]uint64`: `lo` is `s[0]`, `hi` is `s[1]`. -/
structure PCGSource where
  lo : Nat
  hi : Nat
  deriving DecidableEq, Repr

/-- Method `PCGSource.Seed`: two successive draws of a SplitMix64 seeded with `seed`. -/
def PCGSource.Seed (_s : PCGSource) (seed : Int) : PCGSource :=
  let sm64 : SplitMix64Source := 0
  let sm64 := SplitMix64Source.Seed sm64 seed
  let r0 := SplitMix64Source.Uint64 sm64
  let r1 := SplitMix64Source.Uint64 r0.2
  ⟨r0.1, r1.1⟩

/-- Method `PCGSource.add`: 128-bit addition of the increment, with carry. -/
def PCGSource.add (s : PCGSource) : PCGSource :=
  let r0 := Add64 s.lo incLo 0
  let r1 := Add64 s.hi incHi r0.2
  ⟨r0.1, r1.1⟩

/-- Method `PCGSource.mult`: 128-bit multiplication by the multiplier, truncated to 128 bits. -/
def PCGSource.mult (s : PCGSource) : PCGSource :=
  let p := Mul64 s.lo mulLo
  let hi := p.1
  let lo := p.2
  let hi := (hi + (s.hi * mulLo) % 2 ^ 64) % 2 ^ 64
  let hi := (hi + (s.lo * mulHi) % 2 ^ 64) % 2 ^ 64
  ⟨lo, hi⟩

/-- Method `PCGSource.Uint64`: the returned value and the new state. -/
def PCGSource.Uint64 (s : PCGSource) : Nat × PCGSource :=
  let s := PCGSource.mult s
  let s := PCGSource.add s
  (RotateLeft64 (s.lo ^^^ s.hi) (-((s.hi >>> 58 : Nat) : Int)), s)

/-- Method `PCGSource.Int63`: `int64(s.Uint64() & MaxUint63)`. -/
def PCGSource.Int63 (s : PCGSource) : Int × PCGSource :=
  let r := PCGSource.Uint64 s
  (toInt64 (r.1 &&& MaxUint63), r.2)

/-! ## WyRand -/

def wy0 : Nat := 0xa0761d6478bd642f
def wy1 : Nat := 0xe7037ed1a0b428db

/-- The type `WySource` is a single `uint64`. -/
abbrev WySource := Nat

/-- Method `WySource.Seed`: `*s = WySource(seed)`. -/
def WySource.Seed (_s : WySource) (seed : Int) : WySource := toUint64 seed

/-- The helper `wymulf(a, b)`: high half xor low half of the 128-bit product. -/
def wymulf (a b : Nat) : Nat :=
  let p := Mul64 a b
  p.1 ^^^ p.2

/-- Method `WySource.Uint64`: the returned value and the new state. -/
def WySource.Uint64 (s : WySource) : Nat × WySource :=
  let s1 := (s + wy0) % 2 ^ 64
  (wymulf (s1 ^^^ wy1) s1, s1)

/-- Method `WySource.Int63`: `int64(s.Uint64() & MaxUint63)`. -/
def WySource.Int63 (s : WySource) : Int × WySource :=
  let r := WySource.Uint64 s
  (toInt64 (r.1 &&& MaxUint63), r.2)

/-! ## Repeated draws -/

/-- The values returned by `n` successive calls of the drawing method `f`. -/
def drawN {σ : Type} (f : σ → Nat × σ) : Nat → σ → List Nat
  | 0, _ => []
  | n + 1, s => (f s).1 :: drawN f n (f s).2

/-- The state left by `n` successive calls of the drawing method `f`. -/
def advanceN {σ : Type} (f : σ → Nat × σ) : Nat → σ → σ
  | 0, s => s
  | n + 1, s => advanceN f n (f s).2

/-- Every word of a `[4]uint64` is a `uint64`. -/
def XOshiro256Source.WF (s : XOshiro256Source) : Prop :=
  s.s0 < 2 ^ 64 ∧ s.s1 < 2 ^ 64 ∧ s.s2 < 2 ^ 64 ∧ s.s3 < 2 ^ 64

instance (s : XOshiro256Source) : Decidable s.WF := by
  unfold XOshiro256Source.WF; infer_instance

/-- Every word of a `[2]uint64` is a `uint64`. -/
def PCGSource.WF (s : PCGSource) : Prop := s.lo < 2 ^ 64 ∧ s.hi < 2 ^ 64

instance (s : PCGSource) : Decidable s.WF := by unfold PCGSource.WF; infer_instance

/-- The all-zero XOshiro256 state. -/
def XOshiro256Source.AllZero (s : XOshiro256Source) : Prop :=
  s.s0 = 0 ∧ s.s1 = 0 ∧ s.s2 = 0 ∧ s.s3 = 0

instance (s : XOshiro256Source) : Decidable s.AllZero := by
  unfold XOshiro256Source.AllZero; infer_instance

/-- The SplitMix64 finalizer as the specification words it: three rounds of
xor with a right shift, the first two followed by a multiplication modulo `2^64`. -/
def mixSpec (z : Nat) : Nat :=
  let z1 := (Nat.xor z (z / 2 ^ 30) * 0xbf58476d1ce4e5b9) % 2 ^ 64
  let z2 := (Nat.xor z1 (z1 / 2 ^ 27) * 0x94d049bb133111eb) % 2 ^ 64
  Nat.xor z2 (z2 / 2 ^ 31)

/-- The 128-bit integer held by a PCG state: `hi * 2^64 + lo`. -/
def PCGSource.toNat (s : PCGSource) : Nat := s.hi * 2 ^ 64 + s.lo

/-- The 128-bit PCG multiplier `mulHi * 2^64 + mulLo`. -/
def pcgMultiplier : Nat := 0x2360ed051fc65da4 * 2 ^ 64 + 0x4385df649fccf645

/-- The 128-bit PCG increment `incHi * 2^64 + incLo`. -/
def pcgIncrement : Nat := 0x5851f42d4c957f2d * 2 ^ 64 + 0x14057b7ef767814f

/-! ## LockableSource -/

/-- How a method call on the wrapped `rand.Source64` ends: it returns `v` or it panics;
either way the engine is left in some state `s`. -/
inductive Result (α σ : Type) where
  | ret (v : α) (s : σ)
  | panic (s : σ)

/-- The interface `rand.Source64` over engine states `σ`. -/
structure Source64 (σ : Type) where
  Seed : σ → Int → Result Unit σ
  Int63 : σ → Result Int σ
  Uint64 : σ → Result Nat σ

/-- An engine whose three operations always return, as the four engines of this package do. -/
structure Engine (σ : Type) where
  Seed : σ → Int → σ
  Int63 : σ → Int × σ
  Uint64 : σ → Nat × σ

/-- A total engine seen through the interface `rand.Source64`. -/
def Engine.toSource64 {σ : Type} (E : Engine σ) : Source64 σ where
  Seed := fun x seed => Result.ret () (E.Seed x seed)
  Int63 := fun x => Result.ret (E.Int63 x).1 (E.Int63 x).2
  Uint64 := fun x => Result.ret (E.Uint64 x).1 (E.Uint64 x).2

/-- The type `LockableSource`: the mutex `lk` (`true` when held) and the wrapped engine `src`. -/
structure LockableSource (σ : Type) where
  lk : Bool
  src : σ

/-- Constructor `NewLockableSource(src)`: the mutex starts free. -/
def NewLockableSource {σ : Type} (src : σ) : LockableSource σ := ⟨false, src⟩

/-- Go `sync.Mutex.Lock` in a sequential run: a free mutex becomes held, a held one
blocks for ever (`none`). -/
def mutexLock (lk : Bool) : Option Bool := if lk then none else some true

/-- Go `sync.Mutex.Unlock`: a held mutex becomes free, unlocking a free one is a fatal error
(`none`). -/
def mutexUnlock (lk : Bool) : Option Bool := if lk then some false else none

/-- How a method call on the wrapper ends, with the wrapper's state at that point. -/
inductive Exit (α σ : Type) where
  | returned (v : α) (s : LockableSource σ)
  | panicked (s : LockableSource σ)
  | blocked (s : LockableSource σ)

/-- The wrapper's state when the call ends. -/
def Exit.state {α σ : Type} : Exit α σ → LockableSource σ
  | Exit.returned _ s => s
  | Exit.panicked s => s
  | Exit.blocked s => s

/-- The common shape of the three wrapper methods:
`s.lk.Lock(); z := op(s.src); s.lk.Unlock(); return z`, with no deferred call. -/
def LockableSource.call {α σ : Type} (op : σ → Result α σ) (s : LockableSource σ) : Exit α σ :=
  match mutexLock s.lk with
  | none => Exit.blocked s
  | some lk1 =>
    match op s.src with
    | Result.panic x => Exit.panicked ⟨lk1, x⟩
    | Result.ret z x =>
      match mutexUnlock lk1 with
      | none => Exit.panicked ⟨lk1, x⟩
      | some lk2 => Exit.returned z ⟨lk2, x⟩

/-- Method `LockableSource.Seed`. -/
def LockableSource.Seed {σ : Type} (E : Source64 σ) (s : LockableSource σ) (seed : Int) :
    Exit Unit σ :=
  LockableSource.call (fun x => E.Seed x seed) s

/-- Method `LockableSource.Int63`. -/
def LockableSource.Int63 {σ : Type} (E : Source64 σ) (s : LockableSource σ) : Exit Int σ :=
  LockableSource.call E.Int63 s

/-- Method `LockableSource.Uint64`. -/
def LockableSource.Uint64 {σ : Type} (E : Source64 σ) (s : LockableSource σ) : Exit Nat σ :=
  LockableSource.call E.Uint64 s

/-- The values returned by `n` successive `Uint64` calls through the wrapper, `none` when
one of them does not return. -/
def LockableSource.drawN {σ : Type} (E : Source64 σ) : Nat → LockableSource σ → Option (List Nat)
  | 0, _ => some []
  | n + 1, s =>
    match LockableSource.Uint64 E s with
    | Exit.returned v t => (LockableSource.drawN E n t).map (fun l => v :: l)
    | _ => none

/-- A nil `*SplitMix64Source` held in the interface: every method dereferences the nil
receiver and panics. -/
def nilSource : Source64 Unit where
  Seed := fun x _ => Result.panic x
  Int63 := fun x => Result.panic x
  Uint64 := fun x => Result.panic x

/-- The four engines of the package as total engines. -/
def splitMix64Engine : Engine SplitMix64Source :=
  ⟨SplitMix64Source.Seed, SplitMix64Source.Int63, SplitMix64Source.Uint64⟩

def xoshiro256Engine : Engine XOshiro256Source :=
  ⟨XOshiro256Source.Seed, XOshiro256Source.Int63, XOshiro256Source.Uint64⟩

def pcgEngine : Engine PCGSource :=
  ⟨PCGSource.Seed, PCGSource.Int63, PCGSource.Uint64⟩

def wyEngine : Engine WySource :=
  ⟨WySource.Seed, WySource.Int63, WySource.Uint64⟩

/-! ## Polynomials in the XOshiro256 transition -/

/-- Word-wise xor of two XOshiro256 states. -/
def XOshiro256Source.xor (a b : XOshiro256Source) : XOshiro256Source :=
  ⟨a.s0 ^^^ b.s0, a.s1 ^^^ b.s1, a.s2 ^^^ b.s2, a.s3 ^^^ b.s3⟩

/-- The zero state. -/
def XOshiro256Source.zero : XOshiro256Source := ⟨0, 0, 0, 0⟩

/-- One state transition: the receiver's state after one `Uint64` call. -/
def xoStep (s : XOshiro256Source) : XOshiro256Source := (XOshiro256Source.Uint64 s).2

/-- A polynomial over GF(2), coded by the bits of `p`, applied to the transition `step`:
the xor of the states reached from `s` after `k` transitions, over the `k < d` with bit `k`
of `p` set. -/
def polyApplyWith (step : XOshiro256Source → XOshiro256Source) :
    Nat → Nat → XOshiro256Source → XOshiro256Source
  | 0, _, _ => XOshiro256Source.zero
  | d + 1, p, s =>
    XOshiro256Source.xor (if p % 2 = 1 then s else XOshiro256Source.zero)
      (polyApplyWith step d (p / 2) (step s))

/-- A polynomial applied to the XOshiro256 transition. -/
def polyApply (d p : Nat) (s : XOshiro256Source) : XOshiro256Source :=
  polyApplyWith xoStep d p s

/-- A jump table as one polynomial: word `i` of the table holds bits `64 i .. 64 i + 63`. -/
def tablePoly : List Nat → Nat
  | [] => 0
  | w :: ws => w + 2 ^ 64 * tablePoly ws

/-- Calls `f` on `x`, the value of `x` being computed first. -/
def force {α : Type} (x : Nat) (f : Nat → α) : α :=
  match x with
  | 0 => f 0
  | n + 1 => f (n + 1)

/-- The characteristic polynomial of the XOshiro256 transition, of degree 256. -/
def charPoly : Nat := 0x10003c03c3f3ecb1904b4edcf26259f850280002bcefd1a5e9d116f2bb0f0f001

/-- The polynomial `x * r` reduced modulo `charPoly`, for `r` of degree below 256. -/
def redDouble (r : Nat) : Nat :=
  if (2 * r).testBit 256 then (2 * r) ^^^ charPoly else 2 * r

/-- The product of the polynomial made of the low `n` bits of `a` with the polynomial `b`,
modulo `charPoly`. -/
def mulMod : Nat → Nat → Nat → Nat
  | 0, _, _ => 0
  | n + 1, a, b => redDouble (mulMod n (a / 2) b) ^^^ (if a % 2 = 1 then b else 0)

/-- The square of a polynomial of degree below 256, modulo `charPoly`. -/
def polySq (a : Nat) : Nat := force a fun v => mulMod 256 v v

/-- The polynomial `x ^ (2 ^ k)` modulo `charPoly`. -/
def powTwoPoly : Nat → Nat
  | 0 => 2
  | k + 1 => polySq (powTwoPoly k)

/-- The state whose word `j` is `a` and whose other words are zero. -/
def wordState (j a : Nat) : XOshiro256Source :=
  match j with
  | 0 => ⟨a, 0, 0, 0⟩
  | 1 => ⟨0, a, 0, 0⟩
  | 2 => ⟨0, 0, a, 0⟩
  | _ => ⟨0, 0, 0, a⟩

/-! ### 256 generators side by side

A packed word holds 256 lanes of 64 bits; a packed state runs 256 copies of the generator
at once. -/

/-- Lane `l` of a packed word. -/
def lane (l x : Nat) : Nat := (x >>> (64 * l)) % 2 ^ 64

/-- Lane `l` of a packed state. -/
def laneState (l : Nat) (s : XOshiro256Source) : XOshiro256Source :=
  ⟨lane l s.s0, lane l s.s1, lane l s.s2, lane l s.s3⟩

/-- The packed word with a one in bit 0 of each of the 256 lanes. -/
def laneOnes : Nat := (2 ^ 16384 - 1) / (2 ^ 64 - 1)

/-- The packed word with bits `k .. 63` of each lane set. -/
def maskFrom (k : Nat) : Nat := laneOnes * (2 ^ 64 - 2 ^ k)

/-- The packed word with bits `0 .. k - 1` of each lane set. -/
def maskBelow (k : Nat) : Nat := laneOnes * (2 ^ k - 1)

/-- The XOshiro256 transition on every lane of a packed state. -/
def xoStepPacked (s : XOshiro256Source) : XOshiro256Source :=
  let t := (s.s1 <<< 17) &&& maskFrom 17
  let a2 := s.s2 ^^^ s.s0
  let a3 := s.s3 ^^^ s.s1
  let a1 := s.s1 ^^^ a2
  let a0 := s.s0 ^^^ a3
  let a2 := a2 ^^^ t
  let a3 := ((a3 <<< 45) &&& maskFrom 45) ||| ((a3 >>> 19) &&& maskBelow 45)
  ⟨a0, a1, a2, a3⟩

/-- The packed word whose lane `64 j + i` is `2 ^ i`, for `i < 64`, the other lanes zero. -/
def basisWord (j : Nat) : Nat := ((2 ^ 4160 - 1) / (2 ^ 65 - 1)) <<< (4096 * j)

/-- The packed state whose lane `l` is the unit state with bit `l % 64` of word `l / 64`. -/
def basisPacked : XOshiro256Source := ⟨basisWord 0, basisWord 1, basisWord 2, basisWord 3⟩

/-! ## Specification-side definitions for the draws -/

/-- The xor, over the `k < 256` whose bit `k % 64` of word `k / 64` of the table is set, of
the states reached from `s` after `k` transitions. -/
def jumpSpec (tbl : List Nat) (s : XOshiro256Source) : XOshiro256Source :=
  (List.range 256).foldl
    (fun acc k =>
      if (tbl.getD (k / 64) 0).testBit (k % 64) then
        acc.xor (advanceN XOshiro256Source.Uint64 k s)
      else acc)
    XOshiro256Source.zero

/-- The 64-bit right rotation of `v` by `r` positions, for `r < 64`: the bits shifted out at
the low end come back at the high end. -/
def rotr64 (v r : Nat) : Nat := (v >>> r) ||| ((v <<< (64 - r)) % 2 ^ 64)

/-- The sum `1 + m + m^2 + ... + m^(n-1)`. -/
def geomSum (m : Nat) : Nat → Nat
  | 0 => 0
  | n + 1 => m * geomSum m n + 1

/-! # Theorems -/

/-! ## The Int63 relation -/

theorem maxUint63_eq : MaxUint63 = 2 ^ 63 - 1 := by decide

theorem and_maxUint63_lt (v : Nat) : v &&& MaxUint63 < 2 ^ 63 := by
  apply Nat.and_lt_two_pow
  rw [maxUint63_eq]; omega

theorem toInt64_of_lt {u : Nat} (h : u < 2 ^ 63) : toInt64 u = (u : Int) := by
  have h64 : u % 2 ^ 64 = u := Nat.mod_eq_of_lt (by omega)
  unfold toInt64
  rw [h64, if_pos h]

theorem toInt64_masked (v : Nat) :
    toInt64 (v &&& MaxUint63) = ((v &&& (2 ^ 63 - 1) : Nat) : Int) ∧
      0 ≤ toInt64 (v &&& MaxUint63) ∧ toInt64 (v &&& MaxUint63) < 2 ^ 63 := by
  have hlt := and_maxUint63_lt v
  rw [toInt64_of_lt hlt]
  refine ⟨by rw [maxUint63_eq], Int.ofNat_nonneg _, ?_⟩
  exact_mod_cast hlt

/-- C1: for each of the four engines and every state `x`, `Int63` returns the value
`Uint64` returns on `x` masked with `2^63 - 1`, a value in `[0, 2^63)`, and leaves the
engine in the state one `Uint64` call on `x` leaves it. -/
theorem int63_is_masked_uint64 :
    (∀ x : SplitMix64Source,
      (SplitMix64Source.Int63 x).1 = (((SplitMix64Source.Uint64 x).1 &&& (2 ^ 63 - 1) : Nat) : Int) ∧
      0 ≤ (SplitMix64Source.Int63 x).1 ∧ (SplitMix64Source.Int63 x).1 < 2 ^ 63 ∧
      (SplitMix64Source.Int63 x).2 = (SplitMix64Source.Uint64 x).2) ∧
    (∀ x : XOshiro256Source,
      (XOshiro256Source.Int63 x).1 = (((XOshiro256Source.Uint64 x).1 &&& (2 ^ 63 - 1) : Nat) : Int) ∧
      0 ≤ (XOshiro256Source.Int63 x).1 ∧ (XOshiro256Source.Int63 x).1 < 2 ^ 63 ∧
      (XOshiro256Source.Int63 x).2 = (XOshiro256Source.Uint64 x).2) ∧
    (∀ x : PCGSource,
      (PCGSource.Int63 x).1 = (((PCGSource.Uint64 x).1 &&& (2 ^ 63 - 1) : Nat) : Int) ∧
      0 ≤ (PCGSource.Int63 x).1 ∧ (PCGSource.Int63 x).1 < 2 ^ 63 ∧
      (PCGSource.Int63 x).2 = (PCGSource.Uint64 x).2) ∧
    (∀ x : WySource,
      (WySource.Int63 x).1 = (((WySource.Uint64 x).1 &&& (2 ^ 63 - 1) : Nat) : Int) ∧
      0 ≤ (WySource.Int63 x).1 ∧ (WySource.Int63 x).1 < 2 ^ 63 ∧
      (WySource.Int63 x).2 = (WySource.Uint64 x).2) := by
  refine ⟨fun x => ?_, fun x => ?_, fun x => ?_, fun x => ?_⟩
  · obtain ⟨h1, h2, h3⟩ := toInt64_masked (SplitMix64Source.Uint64 x).1
    exact ⟨h1, h2, h3, rfl⟩
  · obtain ⟨h1, h2, h3⟩ := toInt64_masked (XOshiro256Source.Uint64 x).1
    exact ⟨h1, h2, h3, rfl⟩
  · obtain ⟨h1, h2, h3⟩ := toInt64_masked (PCGSource.Uint64 x).1
    exact ⟨h1, h2, h3, rfl⟩
  · obtain ⟨h1, h2, h3⟩ := toInt64_masked (WySource.Uint64 x).1
    exact ⟨h1, h2, h3, rfl⟩

/-! ## SplitMix64: the finalizer and the seeded XOshiro256 state -/

theorem odd_mul_mod_eq_zero {y c : Nat} (hy : y < 2 ^ 64) (hc : Nat.Coprime (2 ^ 64) c)
    (h : (y * c) % 2 ^ 64 = 0) : y = 0 := by
  have h2 : 2 ^ 64 ∣ y * c := Nat.dvd_of_mod_eq_zero h
  have h3 : 2 ^ 64 ∣ y := hc.dvd_of_dvd_mul_right h2
  exact Nat.eq_zero_of_dvd_of_lt h3 hy

theorem xor_shiftRight_eq_zero {z k : Nat} (hk : 0 < k) (h : z ^^^ (z >>> k) = 0) : z = 0 := by
  have h1 : z = z >>> k := Nat.xor_eq_zero.mp h
  rw [Nat.shiftRight_eq_div_pow] at h1
  by_contra hz
  have hpos : 0 < z := Nat.pos_of_ne_zero hz
  have h2 : z / 2 ^ k < z := Nat.div_lt_self hpos (Nat.one_lt_two_pow (by omega))
  omega

theorem xor_shiftRight_lt {z k : Nat} (hz : z < 2 ^ 64) : z ^^^ (z >>> k) < 2 ^ 64 := by
  apply Nat.xor_lt_two_pow hz
  rw [Nat.shiftRight_eq_div_pow]
  exact lt_of_le_of_lt (Nat.div_le_self _ _) hz

theorem coprime_mix1 : Nat.Coprime (2 ^ 64) 0xbf58476d1ce4e5B9 := by
  apply Nat.Coprime.pow_left; norm_num

theorem coprime_mix2 : Nat.Coprime (2 ^ 64) 0x94d049bb133111eB := by
  apply Nat.Coprime.pow_left; norm_num

theorem coprime_gamma : Nat.Coprime (2 ^ 64) 0x9e3779b97f4a7c15 := by
  apply Nat.Coprime.pow_left; norm_num

/-- The SplitMix64 output is zero only when the post-increment state is zero. -/
theorem splitmix_out_eq_zero {x : Nat} (h : (SplitMix64Source.Uint64 x).1 = 0) :
    (SplitMix64Source.Uint64 x).2 = 0 := by
  simp only [SplitMix64Source.Uint64] at h ⊢
  have hlt : (x + 0x9e3779b97f4a7c15) % 2 ^ 64 < 2 ^ 64 := Nat.mod_lt _ (by norm_num)
  generalize (x + 0x9e3779b97f4a7c15) % 2 ^ 64 = z at h hlt ⊢
  have h1 := xor_shiftRight_eq_zero (by norm_num) h
  have h2 := odd_mul_mod_eq_zero (xor_shiftRight_lt (Nat.mod_lt _ (by norm_num))) coprime_mix2 h1
  have h3 := xor_shiftRight_eq_zero (by norm_num) h2
  have h4 := odd_mul_mod_eq_zero (xor_shiftRight_lt hlt) coprime_mix1 h3
  exact xor_shiftRight_eq_zero (by norm_num) h4

/-- C2: for every seed (every integer, so every `int64` bit pattern, zero and the negative
ones included) and whatever the prior state, the state left by `XOshiro256Source.Seed` has
a non-zero word. -/
theorem xoshiro_seed_not_all_zero (prior : XOshiro256Source) (seed : Int) :
    ¬ (XOshiro256Source.Seed prior seed).AllZero := by
  intro h
  obtain ⟨h0, h1, -, -⟩ := h
  simp only [XOshiro256Source.Seed] at h0 h1
  have e0 := splitmix_out_eq_zero h0
  have e1 := splitmix_out_eq_zero h1
  rw [e0] at e1
  revert e1
  decide

/-! ## XOshiro256: the non-zero invariant -/

theorem rotl45_eq (x : Nat) : RotateLeft64 x 45 = ((x <<< 45) % 2 ^ 64) ||| (x >>> 19) := rfl

theorem rotl_lt (x : Nat) (k : Int) (hx : x < 2 ^ 64) : RotateLeft64 x k < 2 ^ 64 := by
  unfold RotateLeft64
  apply Nat.or_lt_two_pow (Nat.mod_lt _ (by norm_num))
  rw [Nat.shiftRight_eq_div_pow]
  exact lt_of_le_of_lt (Nat.div_le_self _ _) hx

theorem or_eq_zero_both {a b : Nat} (h : a ||| b = 0) : a = 0 ∧ b = 0 := by
  constructor
  · apply Nat.eq_of_testBit_eq
    intro i
    have := congrArg (fun n => Nat.testBit n i) h
    simp at this
    simp [this.1]
  · apply Nat.eq_of_testBit_eq
    intro i
    have := congrArg (fun n => Nat.testBit n i) h
    simp at this
    simp [this.2]

theorem rotl45_eq_zero {x : Nat} (h : RotateLeft64 x 45 = 0) : x = 0 := by
  rw [rotl45_eq] at h
  obtain ⟨h1, h2⟩ := or_eq_zero_both h
  rw [Nat.shiftRight_eq_div_pow] at h2
  rw [Nat.shiftLeft_eq] at h1
  omega

theorem shl17_fixed {b : Nat} (hb : b < 2 ^ 64) (h : b = (b <<< 17) % 2 ^ 64) : b = 0 := by
  rw [Nat.shiftLeft_eq] at h
  omega

theorem xo_step_wf (s : XOshiro256Source) (h : s.WF) : (XOshiro256Source.Uint64 s).2.WF := by
  obtain ⟨h0, h1, h2, h3⟩ := h
  simp only [XOshiro256Source.Uint64, XOshiro256Source.WF]
  refine ⟨?_, ?_, ?_, ?_⟩
  · exact Nat.xor_lt_two_pow h0 (Nat.xor_lt_two_pow h3 h1)
  · exact Nat.xor_lt_two_pow h1 (Nat.xor_lt_two_pow h2 h0)
  · exact Nat.xor_lt_two_pow (Nat.xor_lt_two_pow h2 h0) (Nat.mod_lt _ (by norm_num))
  · exact rotl_lt _ _ (Nat.xor_lt_two_pow h3 h1)

theorem xo_advance_wf (n : Nat) (s : XOshiro256Source) (h : s.WF) :
    (advanceN XOshiro256Source.Uint64 n s).WF := by
  induction n generalizing s with
  | zero => exact h
  | succ k ih => exact ih _ (xo_step_wf s h)

theorem xo_step_nonzero (s : XOshiro256Source) (h : s.WF) (hz : ¬ s.AllZero) :
    ¬ (XOshiro256Source.Uint64 s).2.AllZero := by
  obtain ⟨h0, h1, h2, h3⟩ := h
  intro hn
  apply hz
  obtain ⟨a, b, c, d⟩ := s
  simp only [XOshiro256Source.Uint64, XOshiro256Source.AllZero] at h0 h1 h2 h3 hn ⊢
  obtain ⟨e0, e1, e2, e3⟩ := hn
  have f3 : d ^^^ b = 0 := rotl45_eq_zero e3
  rw [f3, Nat.xor_zero] at e0
  subst e0
  have hdb : d = b := Nat.xor_eq_zero.mp f3
  subst hdb
  rw [Nat.xor_zero] at e1 e2
  have hdc : d = c := Nat.xor_eq_zero.mp e1
  subst hdc
  have hfix : d = (d <<< 17) % 2 ^ 64 := Nat.xor_eq_zero.mp e2
  have := shl17_fixed h1 hfix
  subst this
  exact ⟨rfl, rfl, rfl, rfl⟩

theorem xo_advance_nonzero (n : Nat) (s : XOshiro256Source) (h : s.WF) (hz : ¬ s.AllZero) :
    ¬ (advanceN XOshiro256Source.Uint64 n s).AllZero := by
  induction n generalizing s with
  | zero => exact hz
  | succ k ih => exact ih _ (xo_step_wf s h) (xo_step_nonzero s h hz)

/-- C3: from an XOshiro256 state (four `uint64` words) that is not all-zero, the state after
one `Uint64` call is not all-zero, and so is the state after `n` successive calls, for
every `n`. -/
theorem xoshiro_nonzero_preserved (s : XOshiro256Source) (h : s.WF) (hz : ¬ s.AllZero) :
    ¬ (XOshiro256Source.Uint64 s).2.AllZero ∧
      ∀ n, ¬ (advanceN XOshiro256Source.Uint64 n s).AllZero :=
  ⟨xo_step_nonzero s h hz, fun n => xo_advance_nonzero n s h hz⟩

theorem xoshiro_nonzero_preserved_witness :
    (⟨1, 0, 0, 0⟩ : XOshiro256Source).WF ∧ ¬ (⟨1, 0, 0, 0⟩ : XOshiro256Source).AllZero ∧
      (¬ (XOshiro256Source.Uint64 ⟨1, 0, 0, 0⟩).2.AllZero ∧
        ∀ n, ¬ (advanceN XOshiro256Source.Uint64 n ⟨1, 0, 0, 0⟩).AllZero) :=
  ⟨by decide, by decide, xoshiro_nonzero_preserved ⟨1, 0, 0, 0⟩ (by decide) (by decide)⟩

/-! ## PCG: the 128-bit state update -/

theorem pcg_step_update (s : PCGSource) (h : s.WF) :
    (PCGSource.Uint64 s).2.WF ∧
      (PCGSource.Uint64 s).2.toNat = (s.toNat * pcgMultiplier + pcgIncrement) % 2 ^ 128 := by
  obtain ⟨lo, hi⟩ := s
  obtain ⟨h1, h2⟩ := h
  simp only [PCGSource.Uint64, PCGSource.WF, PCGSource.add, PCGSource.mult, PCGSource.toNat,
    Add64, Mul64, pcgMultiplier, pcgIncrement, mulHi, mulLo, incHi, incLo] at *
  omega

/-- C4: for every PCG state of two `uint64` limbs holding `S = hi * 2^64 + lo`, one `Uint64`
call leaves two `uint64` limbs holding `(S * M + C) mod 2^128`, with `M` and `C` the 128-bit
multiplier and increment. -/
theorem pcg_state_update (s : PCGSource) (h : s.WF) :
    (PCGSource.Uint64 s).2.WF ∧
      (PCGSource.Uint64 s).2.toNat = (s.toNat * pcgMultiplier + pcgIncrement) % 2 ^ 128 :=
  pcg_step_update s h

theorem pcg_state_update_witness :
    (⟨0xfedcba9876543210, 0x0123456789abcdef⟩ : PCGSource).WF ∧
      ((PCGSource.Uint64 ⟨0xfedcba9876543210, 0x0123456789abcdef⟩).2.WF ∧
        (PCGSource.Uint64 ⟨0xfedcba9876543210, 0x0123456789abcdef⟩).2.toNat =
          ((⟨0xfedcba9876543210, 0x0123456789abcdef⟩ : PCGSource).toNat * pcgMultiplier
            + pcgIncrement) % 2 ^ 128) :=
  ⟨by decide, pcg_state_update ⟨0xfedcba9876543210, 0x0123456789abcdef⟩ (by decide)⟩

/-! ## SplitMix64: the draw -/

/-- C5: for every SplitMix64 state `x`, `Uint64` sets the state to
`x' = (x + 0x9e3779b97f4a7c15) mod 2^64` and returns `mixSpec x'`; after `Seed(42)` the state
is 42 and the first `Uint64` returns `mixSpec ((42 + 0x9e3779b97f4a7c15) mod 2^64)`, which
is 13679457532755275413. -/
theorem splitmix_uint64_spec :
    (∀ x : SplitMix64Source, SplitMix64Source.Uint64 x =
      (mixSpec ((x + 0x9e3779b97f4a7c15) % 2 ^ 64), (x + 0x9e3779b97f4a7c15) % 2 ^ 64)) ∧
    (∀ prior : SplitMix64Source, SplitMix64Source.Seed prior 42 = 42) ∧
    (∀ prior : SplitMix64Source, (SplitMix64Source.Uint64 (SplitMix64Source.Seed prior 42)).1 =
      mixSpec ((42 + 0x9e3779b97f4a7c15) % 2 ^ 64)) ∧
    mixSpec ((42 + 0x9e3779b97f4a7c15) % 2 ^ 64) = 13679457532755275413 := by
  have hstep : ∀ x : SplitMix64Source, SplitMix64Source.Uint64 x =
      (mixSpec ((x + 0x9e3779b97f4a7c15) % 2 ^ 64), (x + 0x9e3779b97f4a7c15) % 2 ^ 64) := by
    intro x
    simp only [SplitMix64Source.Uint64, mixSpec, Nat.shiftRight_eq_div_pow]
    rfl
  refine ⟨hstep, fun _ => rfl, fun prior => ?_, by decide⟩
  rw [hstep]
  have : SplitMix64Source.Seed prior 42 = 42 := rfl
  rw [this]

/-! ## Seeding is a full reset -/

theorem splitmix_seed_prior (seed : Int) (a b : SplitMix64Source) :
    SplitMix64Source.Seed a seed = SplitMix64Source.Seed b seed := rfl

theorem xoshiro_seed_prior (seed : Int) (a b : XOshiro256Source) :
    XOshiro256Source.Seed a seed = XOshiro256Source.Seed b seed := rfl

theorem pcg_seed_prior (seed : Int) (a b : PCGSource) :
    PCGSource.Seed a seed = PCGSource.Seed b seed := rfl

theorem wy_seed_prior (seed : Int) (a b : WySource) :
    WySource.Seed a seed = WySource.Seed b seed := rfl

/-- C6: for each of the four engines, every seed and any two prior states `a` and `b`,
`Seed` gives the same state from `a` as from `b`, seeding twice gives the state of seeding
once, and the first `n` values drawn after seeding agree, for every `n`. -/
theorem seed_resets_state :
    (∀ (seed : Int) (a b : SplitMix64Source),
      SplitMix64Source.Seed a seed = SplitMix64Source.Seed b seed ∧
      SplitMix64Source.Seed (SplitMix64Source.Seed a seed) seed = SplitMix64Source.Seed a seed ∧
      ∀ n, drawN SplitMix64Source.Uint64 n (SplitMix64Source.Seed a seed) =
        drawN SplitMix64Source.Uint64 n (SplitMix64Source.Seed b seed)) ∧
    (∀ (seed : Int) (a b : XOshiro256Source),
      XOshiro256Source.Seed a seed = XOshiro256Source.Seed b seed ∧
      XOshiro256Source.Seed (XOshiro256Source.Seed a seed) seed = XOshiro256Source.Seed a seed ∧
      ∀ n, drawN XOshiro256Source.Uint64 n (XOshiro256Source.Seed a seed) =
        drawN XOshiro256Source.Uint64 n (XOshiro256Source.Seed b seed)) ∧
    (∀ (seed : Int) (a b : PCGSource),
      PCGSource.Seed a seed = PCGSource.Seed b seed ∧
      PCGSource.Seed (PCGSource.Seed a seed) seed = PCGSource.Seed a seed ∧
      ∀ n, drawN PCGSource.Uint64 n (PCGSource.Seed a seed) =
        drawN PCGSource.Uint64 n (PCGSource.Seed b seed)) ∧
    (∀ (seed : Int) (a b : WySource),
      WySource.Seed a seed = WySource.Seed b seed ∧
      WySource.Seed (WySource.Seed a seed) seed = WySource.Seed a seed ∧
      ∀ n, drawN WySource.Uint64 n (WySource.Seed a seed) =
        drawN WySource.Uint64 n (WySource.Seed b seed)) :=
  ⟨fun seed a b => ⟨splitmix_seed_prior seed a b, splitmix_seed_prior seed _ a,
      fun n => congrArg (drawN SplitMix64Source.Uint64 n) (splitmix_seed_prior seed a b)⟩,
    fun seed a b => ⟨xoshiro_seed_prior seed a b, xoshiro_seed_prior seed _ a,
      fun n => congrArg (drawN XOshiro256Source.Uint64 n) (xoshiro_seed_prior seed a b)⟩,
    fun seed a b => ⟨pcg_seed_prior seed a b, pcg_seed_prior seed _ a,
      fun n => congrArg (drawN PCGSource.Uint64 n) (pcg_seed_prior seed a b)⟩,
    fun seed a b => ⟨wy_seed_prior seed a b, wy_seed_prior seed _ a,
      fun n => congrArg (drawN WySource.Uint64 n) (wy_seed_prior seed a b)⟩⟩

/-! ## LockableSource -/

theorem lockable_call_ret {α σ : Type} (op : σ → Result α σ) (x y : σ) (v : α)
    (h : op x = Result.ret v y) :
    LockableSource.call op ⟨false, x⟩ = Exit.returned v ⟨false, y⟩ := by
  simp [LockableSource.call, mutexLock, mutexUnlock, h]

theorem lockable_call_panic {α σ : Type} (op : σ → Result α σ) (x y : σ)
    (h : op x = Result.panic y) :
    LockableSource.call op ⟨false, x⟩ = Exit.panicked ⟨true, y⟩ := by
  simp [LockableSource.call, mutexLock, h]

theorem lockable_uint64_total {σ : Type} (E : Engine σ) (x : σ) :
    LockableSource.Uint64 E.toSource64 (NewLockableSource x) =
      Exit.returned (E.Uint64 x).1 (NewLockableSource (E.Uint64 x).2) :=
  lockable_call_ret _ _ _ _ rfl

theorem lockable_drawN_total {σ : Type} (E : Engine σ) (n : Nat) (x : σ) :
    LockableSource.drawN E.toSource64 n (NewLockableSource x) = some (drawN E.Uint64 n x) := by
  induction n generalizing x with
  | zero => rfl
  | succ k ih =>
    simp only [LockableSource.drawN, drawN, lockable_uint64_total, ih, Option.map_some']

/-- C8: for every engine whose operations always return and every inner state, each of the
wrapper's `Seed`, `Int63` and `Uint64`, called with the lock free, returns the value the
inner operation returns and leaves the inner engine in the state that one inner operation
leaves it (and the lock free); the first `n` values drawn through the wrapper are the first
`n` values of the unwrapped engine. -/
theorem lockable_delegates {σ : Type} (E : Engine σ) (x : σ) :
    (∀ seed, LockableSource.Seed E.toSource64 (NewLockableSource x) seed =
      Exit.returned () (NewLockableSource (E.Seed x seed))) ∧
    LockableSource.Int63 E.toSource64 (NewLockableSource x) =
      Exit.returned (E.Int63 x).1 (NewLockableSource (E.Int63 x).2) ∧
    LockableSource.Uint64 E.toSource64 (NewLockableSource x) =
      Exit.returned (E.Uint64 x).1 (NewLockableSource (E.Uint64 x).2) ∧
    ∀ n, LockableSource.drawN E.toSource64 n (NewLockableSource x) = some (drawN E.Uint64 n x) :=
  ⟨fun _ => lockable_call_ret _ _ _ _ rfl, lockable_call_ret _ _ _ _ rfl,
    lockable_uint64_total E x, fun n => lockable_drawN_total E n x⟩

/-- C9, as stated, fails: wrapping an engine whose methods panic (a nil pointer receiver)
and calling `Seed`, `Int63` or `Uint64` with the lock free ends with the lock held. -/
theorem lockable_panic_leaves_lock_held :
    (NewLockableSource ()).lk = false ∧
    (LockableSource.Seed nilSource (NewLockableSource ()) 0).state.lk = true ∧
    (LockableSource.Int63 nilSource (NewLockableSource ())).state.lk = true ∧
    (LockableSource.Uint64 nilSource (NewLockableSource ())).state.lk = true :=
  ⟨rfl, rfl, rfl, rfl⟩

/-- C9, amended: started with the lock free, each of the wrapper's `Seed`, `Int63` and
`Uint64` ends with the lock free when the inner operation returns, and with the lock still
held when the inner operation panics. -/
theorem lockable_lock_at_exit {σ : Type} (E : Source64 σ) (x : σ) :
    (∀ seed, (LockableSource.Seed E (NewLockableSource x) seed).state.lk =
      match E.Seed x seed with
      | Result.ret _ _ => false
      | Result.panic _ => true) ∧
    ((LockableSource.Int63 E (NewLockableSource x)).state.lk =
      match E.Int63 x with
      | Result.ret _ _ => false
      | Result.panic _ => true) ∧
    ((LockableSource.Uint64 E (NewLockableSource x)).state.lk =
      match E.Uint64 x with
      | Result.ret _ _ => false
      | Result.panic _ => true) := by
  refine ⟨fun seed => ?_, ?_, ?_⟩
  · unfold LockableSource.Seed NewLockableSource
    cases h : E.Seed x seed with
    | ret v y => rw [lockable_call_ret _ _ _ _ h]; rfl
    | panic y => rw [lockable_call_panic _ _ _ h]; rfl
  · unfold LockableSource.Int63 NewLockableSource
    cases h : E.Int63 x with
    | ret v y => rw [lockable_call_ret _ _ _ _ h]; rfl
    | panic y => rw [lockable_call_panic _ _ _ h]; rfl
  · unfold LockableSource.Uint64 NewLockableSource
    cases h : E.Uint64 x with
    | ret v y => rw [lockable_call_ret _ _ _ _ h]; rfl
    | panic y => rw [lockable_call_panic _ _ _ h]; rfl

/-! ## SplitMix64: the period -/

theorem advanceN_succ {σ : Type} (f : σ → Nat × σ) (n : Nat) (s : σ) :
    advanceN f (n + 1) s = advanceN f n (f s).2 := rfl

theorem splitmix_step_state (x : Nat) :
    (SplitMix64Source.Uint64 x).2 = ((x + 0x9e3779b97f4a7c15) % 2 ^ 64 : Nat) := rfl

theorem splitmix_advance (n x : Nat) (h : x < 2 ^ 64) :
    advanceN SplitMix64Source.Uint64 n x = ((x + n * 0x9e3779b97f4a7c15) % 2 ^ 64 : Nat) := by
  induction n generalizing x with
  | zero =>
    show x = ((x + 0 * 0x9e3779b97f4a7c15) % 2 ^ 64 : Nat)
    omega
  | succ k ih =>
    rw [advanceN_succ, splitmix_step_state, ih _ (Nat.mod_lt _ (by norm_num))]
    show (_ : Nat) = _
    omega

/-- C10: for every SplitMix64 state `x` (a `uint64`) and every `n`, the state after `n`
successive `Uint64` calls from `x` is `x` exactly when `n` is a multiple of `2^64`. -/
theorem splitmix_period (x n : Nat) (h : x < 2 ^ 64) :
    advanceN SplitMix64Source.Uint64 n x = x ↔ 2 ^ 64 ∣ n := by
  rw [splitmix_advance n x h]
  constructor
  · intro h1
    have h4 : (x + n * 0x9e3779b97f4a7c15) % 2 ^ 64 = (x + 0) % 2 ^ 64 := by
      rw [Nat.add_zero, Nat.mod_eq_of_lt h]
      exact h1
    have h5 : Nat.ModEq (2 ^ 64) (n * 0x9e3779b97f4a7c15) 0 := Nat.ModEq.add_left_cancel' x h4
    have h2 : 2 ^ 64 ∣ n * 0x9e3779b97f4a7c15 := (Nat.modEq_zero_iff_dvd).mp h5
    exact coprime_gamma.dvd_of_dvd_mul_right h2
  · intro h1
    obtain ⟨k, rfl⟩ := h1
    show ((x + 2 ^ 64 * k * 0x9e3779b97f4a7c15) % 2 ^ 64 : Nat) = x
    rw [Nat.mul_assoc, Nat.add_mul_mod_self_left, Nat.mod_eq_of_lt h]

theorem splitmix_period_witness :
    (42 : Nat) < 2 ^ 64 ∧ (advanceN SplitMix64Source.Uint64 3 42 = 42 ↔ 2 ^ 64 ∣ 3) :=
  ⟨by decide, splitmix_period 42 3 (by decide)⟩

/-! ## XOshiro256: the transition is linear over xor -/

theorem xo_ext {a b : XOshiro256Source} (h0 : a.s0 = b.s0) (h1 : a.s1 = b.s1)
    (h2 : a.s2 = b.s2) (h3 : a.s3 = b.s3) : a = b := by
  cases a; cases b; simp_all

theorem xo_xor_assoc (a b c : XOshiro256Source) :
    (a.xor b).xor c = a.xor (b.xor c) := by
  simp only [XOshiro256Source.xor, Nat.xor_assoc]

theorem xo_xor_comm (a b : XOshiro256Source) : a.xor b = b.xor a := by
  apply xo_ext <;> exact Nat.xor_comm _ _

theorem xo_xor_zero (a : XOshiro256Source) : a.xor XOshiro256Source.zero = a := by
  apply xo_ext <;> exact Nat.xor_zero _

theorem xo_zero_xor (a : XOshiro256Source) : XOshiro256Source.zero.xor a = a := by
  apply xo_ext <;> exact Nat.zero_xor _

theorem xo_xor_self (a : XOshiro256Source) : a.xor a = XOshiro256Source.zero := by
  apply xo_ext <;> exact Nat.xor_self _

/-- Exchange of the middle terms of a double xor. -/
theorem xo_xor_xor_xor (a b c d : XOshiro256Source) :
    (a.xor b).xor (c.xor d) = (a.xor c).xor (b.xor d) := by
  rw [xo_xor_assoc, xo_xor_assoc, ← xo_xor_assoc b c d, xo_xor_comm b c, xo_xor_assoc c b d]

theorem xo_zero_wf : XOshiro256Source.zero.WF := by decide

theorem xo_xor_wf {a b : XOshiro256Source} (ha : a.WF) (hb : b.WF) : (a.xor b).WF :=
  ⟨Nat.xor_lt_two_pow ha.1 hb.1, Nat.xor_lt_two_pow ha.2.1 hb.2.1,
    Nat.xor_lt_two_pow ha.2.2.1 hb.2.2.1, Nat.xor_lt_two_pow ha.2.2.2 hb.2.2.2⟩

theorem xoStep_wf {s : XOshiro256Source} (h : s.WF) : (xoStep s).WF := xo_step_wf s h

theorem shl17_xor (x y : Nat) :
    ((x ^^^ y) <<< 17) % 2 ^ 64 = ((x <<< 17) % 2 ^ 64) ^^^ ((y <<< 17) % 2 ^ 64) := by
  apply Nat.eq_of_testBit_eq
  intro i
  simp only [Nat.testBit_mod_two_pow, Nat.testBit_shiftLeft, Nat.testBit_xor]
  by_cases h1 : i < 64 <;> by_cases h2 : 17 ≤ i <;> simp [h1, h2]

theorem rotl45_xor {x y : Nat} (hx : x < 2 ^ 64) (hy : y < 2 ^ 64) :
    RotateLeft64 (x ^^^ y) 45 = RotateLeft64 x 45 ^^^ RotateLeft64 y 45 := by
  rw [rotl45_eq, rotl45_eq, rotl45_eq]
  apply Nat.eq_of_testBit_eq
  intro i
  simp only [Nat.testBit_mod_two_pow, Nat.testBit_shiftLeft, Nat.testBit_shiftRight,
    Nat.testBit_xor, Nat.testBit_or]
  by_cases h2 : 45 ≤ i
  · have hxi : x.testBit (19 + i) = false :=
      Nat.testBit_lt_two_pow (lt_of_lt_of_le hx (Nat.pow_le_pow_right (by norm_num) (by omega)))
    have hyi : y.testBit (19 + i) = false :=
      Nat.testBit_lt_two_pow (lt_of_lt_of_le hy (Nat.pow_le_pow_right (by norm_num) (by omega)))
    by_cases h1 : i < 64 <;> simp [h1, h2, hxi, hyi]
  · by_cases h1 : i < 64 <;> simp [h1, h2]

theorem xoStep_zero : xoStep XOshiro256Source.zero = XOshiro256Source.zero := by decide

theorem xoStep_mk (a b c d : Nat) :
    xoStep ⟨a, b, c, d⟩ =
      ⟨a ^^^ (d ^^^ b), b ^^^ (c ^^^ a), c ^^^ a ^^^ ((b <<< 17) % 2 ^ 64),
        RotateLeft64 (d ^^^ b) 45⟩ := rfl

theorem xo_xor_mk (a0 a1 a2 a3 b0 b1 b2 b3 : Nat) :
    XOshiro256Source.xor ⟨a0, a1, a2, a3⟩ ⟨b0, b1, b2, b3⟩ =
      ⟨a0 ^^^ b0, a1 ^^^ b1, a2 ^^^ b2, a3 ^^^ b3⟩ := rfl

theorem xoStep_xor {a b : XOshiro256Source} (ha : a.WF) (hb : b.WF) :
    xoStep (a.xor b) = (xoStep a).xor (xoStep b) := by
  obtain ⟨a0, a1, a2, a3⟩ := a
  obtain ⟨b0, b1, b2, b3⟩ := b
  obtain ⟨-, ha1, -, ha3⟩ := ha
  obtain ⟨-, hb1, -, hb3⟩ := hb
  simp only at ha1 ha3 hb1 hb3
  have hr : RotateLeft64 (a3 ^^^ b3 ^^^ (a1 ^^^ b1)) 45 =
      RotateLeft64 (a3 ^^^ a1) 45 ^^^ RotateLeft64 (b3 ^^^ b1) 45 := by
    rw [← rotl45_xor (Nat.xor_lt_two_pow ha3 ha1) (Nat.xor_lt_two_pow hb3 hb1)]
    congr 1
    ac_rfl
  rw [xo_xor_mk, xoStep_mk, xoStep_mk, xoStep_mk, xo_xor_mk, hr, shl17_xor]
  generalize (a1 <<< 17) % 2 ^ 64 = u
  generalize (b1 <<< 17) % 2 ^ 64 = v
  congr 1 <;> ac_rfl

/-! ## Polynomials applied to the transition -/

theorem polyApply_zero (p : Nat) (s : XOshiro256Source) :
    polyApply 0 p s = XOshiro256Source.zero := rfl

theorem polyApply_succ (d p : Nat) (s : XOshiro256Source) :
    polyApply (d + 1) p s =
      XOshiro256Source.xor (if p % 2 = 1 then s else XOshiro256Source.zero)
        (polyApply d (p / 2) (xoStep s)) := rfl

theorem polyApply_poly_zero (d : Nat) (s : XOshiro256Source) :
    polyApply d 0 s = XOshiro256Source.zero := by
  induction d generalizing s with
  | zero => rfl
  | succ d ih =>
    rw [polyApply_succ, if_neg (by decide : ¬ (0 % 2 = 1)), Nat.zero_div, ih, xo_xor_zero]

theorem ite_state_wf (c : Prop) [Decidable c] {s : XOshiro256Source} (hs : s.WF) :
    (if c then s else XOshiro256Source.zero).WF := by
  split
  · exact hs
  · exact xo_zero_wf

theorem polyApply_wf (d p : Nat) {s : XOshiro256Source} (hs : s.WF) : (polyApply d p s).WF := by
  induction d generalizing p s with
  | zero => exact xo_zero_wf
  | succ d ih =>
    rw [polyApply_succ]
    exact xo_xor_wf (ite_state_wf _ hs) (ih _ (xoStep_wf hs))

theorem polyApply_state_zero (d p : Nat) :
    polyApply d p XOshiro256Source.zero = XOshiro256Source.zero := by
  induction d generalizing p with
  | zero => rfl
  | succ d ih => rw [polyApply_succ, xoStep_zero, ih, ite_self, xo_xor_zero]

theorem polyApply_state_xor (d p : Nat) {a b : XOshiro256Source} (ha : a.WF) (hb : b.WF) :
    polyApply d p (a.xor b) = (polyApply d p a).xor (polyApply d p b) := by
  induction d generalizing p a b with
  | zero => rw [polyApply_zero, polyApply_zero, polyApply_zero, xo_xor_zero]
  | succ d ih =>
    rw [polyApply_succ, polyApply_succ, polyApply_succ, xoStep_xor ha hb,
      ih _ (xoStep_wf ha) (xoStep_wf hb)]
    by_cases h : p % 2 = 1
    · rw [if_pos h, if_pos h, if_pos h, xo_xor_xor_xor]
    · rw [if_neg h, if_neg h, if_neg h, xo_zero_xor, xo_zero_xor, xo_zero_xor]

theorem ite_poly_xor (p q : Nat) (s : XOshiro256Source) :
    (if (p ^^^ q) % 2 = 1 then s else XOshiro256Source.zero) =
      XOshiro256Source.xor (if p % 2 = 1 then s else XOshiro256Source.zero)
        (if q % 2 = 1 then s else XOshiro256Source.zero) := by
  have e : (p ^^^ q) % 2 = (p + q) % 2 := Nat.xor_mod_two_eq
  by_cases hp : p % 2 = 1 <;> by_cases hq : q % 2 = 1
  · rw [if_pos hp, if_pos hq, if_neg (by omega), xo_xor_self]
  · rw [if_pos hp, if_neg hq, if_pos (by omega), xo_xor_zero]
  · rw [if_neg hp, if_pos hq, if_pos (by omega), xo_zero_xor]
  · rw [if_neg hp, if_neg hq, if_neg (by omega), xo_xor_zero]

theorem polyApply_poly_xor (d p q : Nat) (s : XOshiro256Source) :
    polyApply d (p ^^^ q) s = (polyApply d p s).xor (polyApply d q s) := by
  induction d generalizing p q s with
  | zero => rw [polyApply_zero, polyApply_zero, polyApply_zero, xo_xor_zero]
  | succ d ih =>
    rw [polyApply_succ, polyApply_succ, polyApply_succ, Nat.xor_div_two, ih, ite_poly_xor,
      xo_xor_xor_xor]

theorem xoStep_ite (c : Prop) [Decidable c] (s : XOshiro256Source) :
    xoStep (if c then s else XOshiro256Source.zero) =
      if c then xoStep s else XOshiro256Source.zero := by
  split
  · rfl
  · exact xoStep_zero

theorem polyApply_step (d p : Nat) {s : XOshiro256Source} (hs : s.WF) :
    polyApply d p (xoStep s) = xoStep (polyApply d p s) := by
  induction d generalizing p s with
  | zero => rw [polyApply_zero, polyApply_zero, xoStep_zero]
  | succ d ih =>
    rw [polyApply_succ, polyApply_succ,
      xoStep_xor (ite_state_wf _ hs) (polyApply_wf _ _ (xoStep_wf hs)), xoStep_ite,
      ih _ (xoStep_wf hs)]

theorem polyApply_fuel (d k : Nat) {p : Nat} (hp : p < 2 ^ d) (s : XOshiro256Source) :
    polyApply (d + k) p s = polyApply d p s := by
  induction d generalizing p s with
  | zero =>
    have h0 : p = 0 := by simpa using hp
    rw [h0, polyApply_poly_zero, polyApply_poly_zero]
  | succ d ih =>
    have h2 : p / 2 < 2 ^ d := by
      rw [Nat.pow_succ] at hp
      omega
    rw [show d + 1 + k = (d + k) + 1 by omega, polyApply_succ, polyApply_succ, ih h2]

theorem polyApply_double (d p : Nat) (s : XOshiro256Source) :
    polyApply (d + 1) (2 * p) s = polyApply d p (xoStep s) := by
  rw [polyApply_succ, if_neg (by omega), Nat.mul_div_cancel_left _ (by norm_num : 0 < 2),
    xo_zero_xor]

theorem polyApply_x (d : Nat) (s : XOshiro256Source) : polyApply (d + 2) 2 s = xoStep s := by
  rw [polyApply_succ, polyApply_succ, if_neg (by decide : ¬ (2 % 2 = 1)),
    if_pos (by decide : (2 / 2) % 2 = 1), show 2 / 2 / 2 = 0 by decide, polyApply_poly_zero,
    xo_xor_zero, xo_zero_xor]

/-! ## Repeated transitions -/

theorem xoAdvance_succ (n : Nat) (s : XOshiro256Source) :
    advanceN XOshiro256Source.Uint64 (n + 1) s =
      advanceN XOshiro256Source.Uint64 n (xoStep s) := rfl

theorem advanceN_add {σ : Type} (f : σ → Nat × σ) (m n : Nat) (s : σ) :
    advanceN f (m + n) s = advanceN f n (advanceN f m s) := by
  induction m generalizing s with
  | zero => rw [Nat.zero_add]; rfl
  | succ m ih => rw [show m + 1 + n = (m + n) + 1 by omega, advanceN_succ, ih, advanceN_succ]

theorem polyApply_snoc (n w : Nat) (s : XOshiro256Source) :
    polyApply (n + 1) w s =
      (polyApply n w s).xor
        (if w.testBit n then advanceN XOshiro256Source.Uint64 n s else XOshiro256Source.zero) := by
  induction n generalizing w s with
  | zero =>
    rw [polyApply_succ, polyApply_zero, polyApply_zero, xo_xor_zero, xo_zero_xor]
    simp only [Nat.testBit_zero, decide_eq_true_eq]
    rfl
  | succ n ih =>
    rw [polyApply_succ, ih, polyApply_succ n, Nat.testBit_succ, xoAdvance_succ, xo_xor_assoc]

theorem polyApply_concat (k m q : Nat) {w : Nat} (hw : w < 2 ^ k) (s : XOshiro256Source) :
    polyApply (k + m) (w + 2 ^ k * q) s =
      (polyApply k w s).xor (polyApply m q (advanceN XOshiro256Source.Uint64 k s)) := by
  induction k generalizing w s with
  | zero =>
    have h0 : w = 0 := by simpa using hw
    rw [h0, Nat.zero_add, Nat.zero_add, Nat.pow_zero, Nat.one_mul, polyApply_zero, xo_zero_xor]
    rfl
  | succ k ih =>
    have e0 : 2 ^ (k + 1) * q = 2 * (2 ^ k * q) := by rw [Nat.pow_succ]; ring
    have h2 : w / 2 < 2 ^ k := by
      rw [Nat.pow_succ] at hw
      omega
    have e1 : (w + 2 ^ (k + 1) * q) % 2 = w % 2 := by rw [e0]; omega
    have e2 : (w + 2 ^ (k + 1) * q) / 2 = w / 2 + 2 ^ k * q := by rw [e0]; omega
    rw [show k + 1 + m = (k + m) + 1 by omega, polyApply_succ, polyApply_succ, e1, e2, ih h2,
      xoAdvance_succ, xo_xor_assoc]

/-! ## The jump loops as polynomials -/

theorem jump_test_iff (w b : Nat) (hb : b < 64) :
    w &&& ((1 <<< b) % 2 ^ 64) ≠ 0 ↔ w.testBit b = true := by
  have h1 : (1 <<< b) % 2 ^ 64 = 2 ^ b := by
    rw [Nat.one_shiftLeft]
    exact Nat.mod_eq_of_lt (Nat.pow_lt_pow_right (by norm_num) hb)
  rw [h1, Nat.and_two_pow]
  cases w.testBit b with
  | true => simp
  | false => simp

theorem jumpBit_eq (w b : Nat) (hb : b < 64) (acc s : XOshiro256Source) :
    jumpBit w b (acc, s) =
      (acc.xor (if w.testBit b then s else XOshiro256Source.zero), xoStep s) := by
  show ((if w &&& ((1 <<< b) % 2 ^ 64) ≠ 0 then
      (⟨acc.s0 ^^^ s.s0, acc.s1 ^^^ s.s1, acc.s2 ^^^ s.s2, acc.s3 ^^^ s.s3⟩ : XOshiro256Source)
    else acc), (XOshiro256Source.Uint64 s).2) = _
  by_cases h : w.testBit b = true
  · rw [if_pos ((jump_test_iff w b hb).mpr h), if_pos h]
    rfl
  · rw [if_neg (fun hc => h ((jump_test_iff w b hb).mp hc)), if_neg h, xo_xor_zero]
    rfl

theorem xoAdvance_succ_last (n : Nat) (s : XOshiro256Source) :
    advanceN XOshiro256Source.Uint64 (n + 1) s =
      xoStep (advanceN XOshiro256Source.Uint64 n s) := by
  rw [advanceN_add]
  rfl

theorem jumpWord_upto (w n : Nat) (hn : n ≤ 64) (acc s : XOshiro256Source) :
    (List.range n).foldl (fun q b => jumpBit w b q) (acc, s) =
      (acc.xor (polyApply n w s), advanceN XOshiro256Source.Uint64 n s) := by
  induction n with
  | zero =>
    rw [polyApply_zero, xo_xor_zero]
    rfl
  | succ n ih =>
    rw [List.range_succ, List.foldl_append, ih (by omega), List.foldl_cons, List.foldl_nil,
      jumpBit_eq w n (by omega), polyApply_snoc, xoAdvance_succ_last, xo_xor_assoc]

theorem jumpWord_eq (w : Nat) (acc s : XOshiro256Source) :
    jumpWord w (acc, s) =
      (acc.xor (polyApply 64 w s), advanceN XOshiro256Source.Uint64 64 s) :=
  jumpWord_upto w 64 (le_refl _) acc s

theorem jumpFold_eq (tbl : List Nat) (htbl : ∀ w ∈ tbl, w < 2 ^ 64) (acc s : XOshiro256Source) :
    tbl.foldl (fun q w => jumpWord w q) (acc, s) =
      (acc.xor (polyApply (64 * tbl.length) (tablePoly tbl) s),
        advanceN XOshiro256Source.Uint64 (64 * tbl.length) s) := by
  induction tbl generalizing acc s with
  | nil =>
    rw [List.foldl_nil, List.length_nil, Nat.mul_zero, polyApply_zero, xo_xor_zero]
    rfl
  | cons w ws ih =>
    have hw : w < 2 ^ 64 := htbl w (List.mem_cons_self _ _)
    have hws : ∀ v ∈ ws, v < 2 ^ 64 := fun v hv => htbl v (List.mem_cons_of_mem _ hv)
    rw [List.foldl_cons, jumpWord_eq, ih hws, List.length_cons,
      show 64 * (ws.length + 1) = 64 + 64 * ws.length by omega, tablePoly,
      polyApply_concat 64 _ _ hw, advanceN_add, xo_xor_assoc]

/-- The loops of `Jump` and `LongJump`: the returned state is the table, read as a
polynomial, applied to the transition; the receiver advances `64` steps per table word. -/
theorem jumpLoop_eq (tbl : List Nat) (htbl : ∀ w ∈ tbl, w < 2 ^ 64) (s : XOshiro256Source) :
    jumpLoop tbl s =
      (polyApply (64 * tbl.length) (tablePoly tbl) s,
        advanceN XOshiro256Source.Uint64 (64 * tbl.length) s) := by
  unfold jumpLoop
  rw [show (⟨0, 0, 0, 0⟩ : XOshiro256Source) = XOshiro256Source.zero from rfl,
    jumpFold_eq tbl htbl, xo_zero_xor]

theorem jumpBits_lt : ∀ w ∈ jumpBits, w < 2 ^ 64 := by decide

theorem jump_eq_poly (s : XOshiro256Source) :
    XOshiro256Source.Jump s =
      (polyApply 256 (tablePoly jumpBits) s, advanceN XOshiro256Source.Uint64 256 s) :=
  jumpLoop_eq jumpBits jumpBits_lt s

/-! ## The characteristic polynomial annihilates the transition

The 256 unit states are run side by side, one per lane of a packed state. -/

theorem lane_testBit (l x i : Nat) :
    (lane l x).testBit i = (decide (i < 64) && x.testBit (64 * l + i)) := by
  simp only [lane, Nat.testBit_mod_two_pow, Nat.testBit_shiftRight]

theorem lane_zero (l : Nat) : lane l 0 = 0 := by
  simp [lane]

theorem lane_xor (l x y : Nat) : lane l (x ^^^ y) = lane l x ^^^ lane l y := by
  apply Nat.eq_of_testBit_eq
  intro i
  simp only [lane_testBit, Nat.testBit_xor]
  cases decide (i < 64) <;> simp

theorem lane_and (l x y : Nat) : lane l (x &&& y) = lane l x &&& lane l y := by
  apply Nat.eq_of_testBit_eq
  intro i
  simp only [lane_testBit, Nat.testBit_and]
  cases decide (i < 64) <;> simp

theorem lane_or (l x y : Nat) : lane l (x ||| y) = lane l x ||| lane l y := by
  apply Nat.eq_of_testBit_eq
  intro i
  simp only [lane_testBit, Nat.testBit_or]
  cases decide (i < 64) <;> simp

theorem mask17_testBit (i : Nat) :
    (2 ^ 64 - 2 ^ 17 : Nat).testBit i = (decide (17 ≤ i) && decide (i < 64)) := by
  by_cases h : i < 64
  · have hall : ∀ j < 64, (2 ^ 64 - 2 ^ 17 : Nat).testBit j = (decide (17 ≤ j) && decide (j < 64)) := by
      decide
    exact hall i h
  · rw [Nat.testBit_lt_two_pow (lt_of_lt_of_le (by norm_num : 2 ^ 64 - 2 ^ 17 < 2 ^ 64)
      (Nat.pow_le_pow_right (by norm_num) (by omega)))]
    simp [h]

theorem mask45_testBit (i : Nat) :
    (2 ^ 64 - 2 ^ 45 : Nat).testBit i = (decide (45 ≤ i) && decide (i < 64)) := by
  by_cases h : i < 64
  · have hall : ∀ j < 64, (2 ^ 64 - 2 ^ 45 : Nat).testBit j = (decide (45 ≤ j) && decide (j < 64)) := by
      decide
    exact hall i h
  · rw [Nat.testBit_lt_two_pow (lt_of_lt_of_le (by norm_num : 2 ^ 64 - 2 ^ 45 < 2 ^ 64)
      (Nat.pow_le_pow_right (by norm_num) (by omega)))]
    simp [h]

theorem lane_shl17 (l x : Nat) :
    lane l (x <<< 17) &&& (2 ^ 64 - 2 ^ 17) = ((lane l x) <<< 17) % 2 ^ 64 := by
  apply Nat.eq_of_testBit_eq
  intro i
  rw [Nat.testBit_and, lane_testBit, mask17_testBit, Nat.testBit_mod_two_pow,
    Nat.testBit_shiftLeft, Nat.testBit_shiftLeft, lane_testBit]
  by_cases h1 : i < 64
  · by_cases h2 : 17 ≤ i
    · have e : 64 * l + i - 17 = 64 * l + (i - 17) := by omega
      have h3 : 17 ≤ 64 * l + i := by omega
      have h4 : i - 17 < 64 := by omega
      simp [h1, h2, e, h3, h4]
    · simp [h1, h2]
  · simp [h1]

theorem lane_shl45 (l x : Nat) :
    lane l (x <<< 45) &&& (2 ^ 64 - 2 ^ 45) = ((lane l x) <<< 45) % 2 ^ 64 := by
  apply Nat.eq_of_testBit_eq
  intro i
  rw [Nat.testBit_and, lane_testBit, mask45_testBit, Nat.testBit_mod_two_pow,
    Nat.testBit_shiftLeft, Nat.testBit_shiftLeft, lane_testBit]
  by_cases h1 : i < 64
  · by_cases h2 : 45 ≤ i
    · have e : 64 * l + i - 45 = 64 * l + (i - 45) := by omega
      have h3 : 45 ≤ 64 * l + i := by omega
      have h4 : i - 45 < 64 := by omega
      simp [h1, h2, e, h3, h4]
    · simp [h1, h2]
  · simp [h1]

theorem lane_shr19 (l x : Nat) :
    lane l (x >>> 19) &&& (2 ^ 45 - 1) = (lane l x) >>> 19 := by
  apply Nat.eq_of_testBit_eq
  intro i
  rw [Nat.testBit_and, lane_testBit, Nat.testBit_two_pow_sub_one, Nat.testBit_shiftRight,
    Nat.testBit_shiftRight, lane_testBit]
  have e : 19 + (64 * l + i) = 64 * l + (19 + i) := by omega
  by_cases h1 : i < 45
  · have h2 : i < 64 := by omega
    have h3 : 19 + i < 64 := by omega
    simp [h1, h2, h3, e]
  · have h3 : ¬ (19 + i < 64) := by omega
    simp [h1, h3]

theorem lanes_maskFrom17 : ∀ l < 256, lane l (maskFrom 17) = 2 ^ 64 - 2 ^ 17 := by decide!

theorem lanes_maskFrom45 : ∀ l < 256, lane l (maskFrom 45) = 2 ^ 64 - 2 ^ 45 := by decide!

theorem lanes_maskBelow45 : ∀ l < 256, lane l (maskBelow 45) = 2 ^ 45 - 1 := by decide!

theorem lanes_basis :
    ∀ l < 256, laneState l basisPacked = wordState (l / 64) (2 ^ (l % 64)) := by decide!

theorem packed_kill :
    polyApplyWith xoStepPacked 257 charPoly basisPacked = XOshiro256Source.zero := by decide!

theorem xoStepPacked_mk (a b c d : Nat) :
    xoStepPacked ⟨a, b, c, d⟩ =
      ⟨a ^^^ (d ^^^ b), b ^^^ (c ^^^ a), c ^^^ a ^^^ ((b <<< 17) &&& maskFrom 17),
        (((d ^^^ b) <<< 45) &&& maskFrom 45) ||| (((d ^^^ b) >>> 19) &&& maskBelow 45)⟩ := rfl

theorem laneState_mk (l a b c d : Nat) :
    laneState l ⟨a, b, c, d⟩ = ⟨lane l a, lane l b, lane l c, lane l d⟩ := rfl

theorem laneState_step (l : Nat) (hl : l < 256) (s : XOshiro256Source) :
    laneState l (xoStepPacked s) = xoStep (laneState l s) := by
  obtain ⟨a, b, c, d⟩ := s
  rw [xoStepPacked_mk, laneState_mk, laneState_mk, xoStep_mk, rotl45_eq]
  simp only [lane_xor, lane_or, lane_and, lanes_maskFrom17 l hl, lanes_maskFrom45 l hl,
    lanes_maskBelow45 l hl, lane_shl17, lane_shl45, lane_shr19]

theorem laneState_zero (l : Nat) : laneState l XOshiro256Source.zero = XOshiro256Source.zero := by
  show (⟨lane l 0, lane l 0, lane l 0, lane l 0⟩ : XOshiro256Source) = ⟨0, 0, 0, 0⟩
  rw [lane_zero]

theorem laneState_xor (l : Nat) (a b : XOshiro256Source) :
    laneState l (a.xor b) = (laneState l a).xor (laneState l b) := by
  obtain ⟨a0, a1, a2, a3⟩ := a
  obtain ⟨b0, b1, b2, b3⟩ := b
  rw [xo_xor_mk, laneState_mk, laneState_mk, laneState_mk, xo_xor_mk, lane_xor, lane_xor,
    lane_xor, lane_xor]

theorem laneState_ite (l : Nat) (c : Prop) [Decidable c] (s : XOshiro256Source) :
    laneState l (if c then s else XOshiro256Source.zero) =
      if c then laneState l s else XOshiro256Source.zero := by
  split
  · rfl
  · exact laneState_zero l

theorem polyApplyWith_succ (step : XOshiro256Source → XOshiro256Source) (d p : Nat)
    (s : XOshiro256Source) :
    polyApplyWith step (d + 1) p s =
      XOshiro256Source.xor (if p % 2 = 1 then s else XOshiro256Source.zero)
        (polyApplyWith step d (p / 2) (step s)) := rfl

theorem laneState_polyApply (l : Nat) (hl : l < 256) (d p : Nat) (s : XOshiro256Source) :
    laneState l (polyApplyWith xoStepPacked d p s) = polyApply d p (laneState l s) := by
  induction d generalizing p s with
  | zero => exact laneState_zero l
  | succ d ih =>
    rw [polyApplyWith_succ, polyApply_succ, laneState_xor, laneState_ite, ih, laneState_step l hl]

/-- The characteristic polynomial sends each of the 256 unit states to zero. -/
theorem charPoly_kills_unit (l : Nat) (hl : l < 256) :
    polyApply 257 charPoly (wordState (l / 64) (2 ^ (l % 64))) = XOshiro256Source.zero := by
  rw [← lanes_basis l hl, ← laneState_polyApply l hl, packed_kill, laneState_zero]

theorem word_split (a n : Nat) (h : a < 2 ^ (n + 1)) :
    a = (a % 2 ^ n) ^^^ (if a.testBit n then 2 ^ n else 0) := by
  apply Nat.eq_of_testBit_eq
  intro i
  rw [Nat.testBit_xor, Nat.testBit_mod_two_pow]
  rcases Nat.lt_trichotomy i n with hlt | heq | hgt
  · have hne : n ≠ i := by omega
    by_cases hb : a.testBit n = true
    · rw [if_pos hb, Nat.testBit_two_pow_of_ne hne]
      simp [hlt]
    · rw [if_neg hb]
      simp [hlt]
  · subst heq
    by_cases hb : a.testBit i = true
    · rw [if_pos hb, Nat.testBit_two_pow_self, hb]
      simp
    · rw [if_neg hb]
      simp at hb
      simp [hb]
  · have hne : n ≠ i := by omega
    have hfalse : a.testBit i = false :=
      Nat.testBit_lt_two_pow (lt_of_lt_of_le h (Nat.pow_le_pow_right (by norm_num) (by omega)))
    have hnlt : ¬ i < n := by omega
    by_cases hb : a.testBit n = true
    · rw [if_pos hb, Nat.testBit_two_pow_of_ne hne, hfalse]
      simp [hnlt]
    · rw [if_neg hb, hfalse]
      simp [hnlt]

theorem wordState_zero (j : Nat) : wordState j 0 = XOshiro256Source.zero := by
  unfold wordState
  split <;> rfl

theorem wordState_xor (j x y : Nat) :
    wordState j (x ^^^ y) = (wordState j x).xor (wordState j y) := by
  unfold wordState
  split <;> simp [XOshiro256Source.xor]

theorem wordState_wf (j : Nat) {a : Nat} (ha : a < 2 ^ 64) : (wordState j a).WF := by
  have h0 : (0 : Nat) < 2 ^ 64 := by norm_num
  unfold wordState
  split <;> exact ⟨by first | exact ha | exact h0, by first | exact ha | exact h0,
    by first | exact ha | exact h0, by first | exact ha | exact h0⟩

theorem charPoly_kills_word (j : Nat) (hj : j < 4) (n : Nat) (hn : n ≤ 64) (a : Nat)
    (ha : a < 2 ^ n) :
    polyApply 257 charPoly (wordState j a) = XOshiro256Source.zero := by
  induction n generalizing a with
  | zero =>
    have h0 : a = 0 := by simpa using ha
    rw [h0, wordState_zero, polyApply_state_zero]
  | succ n ih =>
    have hlow : a % 2 ^ n < 2 ^ n := Nat.mod_lt _ (Nat.pos_pow_of_pos _ (by norm_num))
    have hn64 : (2 : Nat) ^ n ≤ 2 ^ 64 := Nat.pow_le_pow_right (by norm_num) (by omega)
    have hpow : (2 : Nat) ^ n < 2 ^ 64 := Nat.pow_lt_pow_right (by norm_num) (by omega)
    have hbit : (if a.testBit n then 2 ^ n else 0) < 2 ^ 64 := by
      split
      · exact hpow
      · exact Nat.pos_pow_of_pos _ (by norm_num)
    rw [word_split a n ha, wordState_xor,
      polyApply_state_xor _ _ (wordState_wf j (lt_of_lt_of_le hlow hn64)) (wordState_wf j hbit),
      ih (by omega) _ hlow, xo_zero_xor]
    by_cases hb : a.testBit n = true
    · rw [if_pos hb]
      have hunit := charPoly_kills_unit (64 * j + n) (by omega)
      rw [show (64 * j + n) / 64 = j by omega, show (64 * j + n) % 64 = n by omega] at hunit
      exact hunit
    · rw [if_neg hb, wordState_zero, polyApply_state_zero]

theorem state_split (a b c d : Nat) :
    (⟨a, b, c, d⟩ : XOshiro256Source) =
      (wordState 0 a).xor ((wordState 1 b).xor ((wordState 2 c).xor (wordState 3 d))) := by
  simp [wordState, XOshiro256Source.xor]

/-- The characteristic polynomial applied to the transition is zero on every state. -/
theorem charPoly_kills {s : XOshiro256Source} (hs : s.WF) :
    polyApply 257 charPoly s = XOshiro256Source.zero := by
  obtain ⟨a, b, c, d⟩ := s
  obtain ⟨ha, hb, hc, hd⟩ := hs
  simp only at ha hb hc hd
  have wa := wordState_wf 0 ha
  have wb := wordState_wf 1 hb
  have wc := wordState_wf 2 hc
  have wd := wordState_wf 3 hd
  rw [state_split, polyApply_state_xor _ _ wa (xo_xor_wf wb (xo_xor_wf wc wd)),
    polyApply_state_xor _ _ wb (xo_xor_wf wc wd), polyApply_state_xor _ _ wc wd,
    charPoly_kills_word 0 (by norm_num) 64 (le_refl _) a ha,
    charPoly_kills_word 1 (by norm_num) 64 (le_refl _) b hb,
    charPoly_kills_word 2 (by norm_num) 64 (le_refl _) c hc,
    charPoly_kills_word 3 (by norm_num) 64 (le_refl _) d hd,
    xo_xor_zero, xo_xor_zero, xo_xor_zero]

/-! ## Arithmetic modulo the characteristic polynomial -/

theorem charPoly_testBit : charPoly.testBit 256 = true := by decide

theorem charPoly_lt : charPoly < 2 * 2 ^ 256 := by decide

theorem lt_two_pow_of_lt_of_lt {n x i : Nat} (hx : x < 2 * 2 ^ n) (hi : n < i) : x < 2 ^ i :=
  calc x < 2 * 2 ^ n := hx
    _ = 2 ^ n * 2 := Nat.mul_comm _ _
    _ = 2 ^ (n + 1) := (Nat.pow_succ 2 n).symm
    _ ≤ 2 ^ i := Nat.pow_le_pow_right (by norm_num) hi

theorem charPoly_kills_succ {s : XOshiro256Source} (hs : s.WF) :
    polyApply (256 + 1) charPoly s = XOshiro256Source.zero := charPoly_kills hs

theorem redDouble_lt {r : Nat} (hr : r < 2 ^ 256) : redDouble r < 2 ^ 256 := by
  have h2 : 2 * r < 2 * 2 ^ 256 := by omega
  unfold redDouble
  split
  · rename_i hb
    apply Nat.lt_pow_two_of_testBit
    intro i hi
    rw [Nat.testBit_xor]
    rcases Nat.eq_or_lt_of_le hi with h | h
    · rw [← h, hb, charPoly_testBit]
      rfl
    · rw [Nat.testBit_lt_two_pow (lt_two_pow_of_lt_of_lt h2 h),
        Nat.testBit_lt_two_pow (lt_two_pow_of_lt_of_lt charPoly_lt h)]
      rfl
  · rename_i hb
    apply Nat.lt_pow_two_of_testBit
    intro i hi
    rcases Nat.eq_or_lt_of_le hi with h | h
    · rw [← h]
      simpa using hb
    · exact Nat.testBit_lt_two_pow (lt_two_pow_of_lt_of_lt h2 h)

theorem polyApply_redDouble {s : XOshiro256Source} (hs : s.WF) {r : Nat} (hr : r < 2 ^ 256) :
    polyApply 256 (redDouble r) s = polyApply 256 r (xoStep s) := by
  rw [← polyApply_fuel 256 1 (redDouble_lt hr) s]
  unfold redDouble
  split
  · rw [polyApply_poly_xor, charPoly_kills_succ hs, xo_xor_zero, polyApply_double]
  · rw [polyApply_double]

theorem mulMod_succ (n a b : Nat) :
    mulMod (n + 1) a b = redDouble (mulMod n (a / 2) b) ^^^ (if a % 2 = 1 then b else 0) := rfl

theorem mulMod_lt (n a : Nat) {b : Nat} (hb : b < 2 ^ 256) : mulMod n a b < 2 ^ 256 := by
  induction n generalizing a with
  | zero => exact Nat.pos_pow_of_pos _ (by norm_num)
  | succ n ih =>
    rw [mulMod_succ]
    apply Nat.xor_lt_two_pow (redDouble_lt (ih _))
    split
    · exact hb
    · exact Nat.pos_pow_of_pos _ (by norm_num)

theorem polyApply_ite_poly (d : Nat) (c : Prop) [Decidable c] (b : Nat) (s : XOshiro256Source) :
    polyApply d (if c then b else 0) s =
      if c then polyApply d b s else XOshiro256Source.zero := by
  split
  · rfl
  · exact polyApply_poly_zero d s

/-- The product modulo the characteristic polynomial composes the two polynomials. -/
theorem polyApply_mulMod (n a : Nat) {b : Nat} (hb : b < 2 ^ 256) {s : XOshiro256Source}
    (hs : s.WF) :
    polyApply 256 (mulMod n a b) s = polyApply n a (polyApply 256 b s) := by
  induction n generalizing a s with
  | zero => rw [polyApply_zero]; exact polyApply_poly_zero 256 s
  | succ n ih =>
    rw [mulMod_succ, polyApply_poly_xor, polyApply_redDouble hs (mulMod_lt _ _ hb),
      ih _ (xoStep_wf hs), polyApply_succ n a (polyApply 256 b s), polyApply_step _ _ hs,
      polyApply_ite_poly, xo_xor_comm]

theorem force_eq {α : Type} (x : Nat) (f : Nat → α) : force x f = f x := by
  cases x <;> rfl

theorem polySq_eq (a : Nat) : polySq a = mulMod 256 a a := force_eq a _

theorem powTwoPoly_lt (k : Nat) : powTwoPoly k < 2 ^ 256 := by
  cases k with
  | zero => show 2 < 2 ^ 256; norm_num
  | succ k =>
    show polySq (powTwoPoly k) < 2 ^ 256
    rw [polySq_eq]
    exact mulMod_lt _ _ (powTwoPoly_lt k)

/-- The polynomial `powTwoPoly k` applied to the transition is `2 ^ k` transitions. -/
theorem polyApply_powTwoPoly (k : Nat) {s : XOshiro256Source} (hs : s.WF) :
    polyApply 256 (powTwoPoly k) s = advanceN XOshiro256Source.Uint64 (2 ^ k) s := by
  induction k generalizing s with
  | zero => exact polyApply_x 254 s
  | succ k ih =>
    show polyApply 256 (polySq (powTwoPoly k)) s = _
    rw [polySq_eq, polyApply_mulMod _ _ (powTwoPoly_lt k) hs, ih hs,
      ih (xo_advance_wf _ _ hs), ← advanceN_add, Nat.pow_succ, Nat.mul_two]

/-- The table of `Jump`, read as a polynomial, is `x ^ (2 ^ 128)` modulo the characteristic
polynomial. -/
theorem jumpPoly_eq : powTwoPoly 128 = tablePoly jumpBits := by decide!

/-- C7: for every XOshiro256 state `s` (four `uint64` words), the state returned by `Jump`
called on `s` is the state reached from `s` by `2 ^ 128` successive `Uint64` calls. -/
theorem jump_is_two_pow_128_steps (s : XOshiro256Source) (hs : s.WF) :
    (XOshiro256Source.Jump s).1 = advanceN XOshiro256Source.Uint64 (2 ^ 128) s := by
  rw [jump_eq_poly, ← jumpPoly_eq]
  exact polyApply_powTwoPoly 128 hs

theorem jump_is_two_pow_128_steps_witness :
    (⟨1, 2, 3, 4⟩ : XOshiro256Source).WF ∧
      (XOshiro256Source.Jump ⟨1, 2, 3, 4⟩).1 =
        advanceN XOshiro256Source.Uint64 (2 ^ 128) ⟨1, 2, 3, 4⟩ :=
  ⟨by decide, jump_is_two_pow_128_steps ⟨1, 2, 3, 4⟩ (by decide)⟩

/-! ## XOshiro256: the draw -/

/-- C12: for every XOshiro256 state `(a, b, c, d)`, `Uint64` returns
`(rotl64((b * 5) mod 2^64, 7) * 9) mod 2^64`, computed from the old `b`, and leaves the state
`(a xor b xor d, a xor b xor c, a xor c xor ((b << 17) mod 2^64), rotl64(b xor d, 45))`, the
shifted value taken from the old `b`. -/
theorem xoshiro_uint64_spec (a b c d : Nat) :
    XOshiro256Source.Uint64 ⟨a, b, c, d⟩ =
      ((RotateLeft64 ((b * 5) % 2 ^ 64) 7 * 9) % 2 ^ 64,
        ⟨a ^^^ b ^^^ d, a ^^^ b ^^^ c, a ^^^ c ^^^ ((b <<< 17) % 2 ^ 64),
          RotateLeft64 (b ^^^ d) 45⟩) := by
  have h : XOshiro256Source.Uint64 ⟨a, b, c, d⟩ =
      ((RotateLeft64 ((b * 5) % 2 ^ 64) 7 * 9) % 2 ^ 64,
        ⟨a ^^^ (d ^^^ b), b ^^^ (c ^^^ a), c ^^^ a ^^^ ((b <<< 17) % 2 ^ 64),
          RotateLeft64 (d ^^^ b) 45⟩) := rfl
  rw [h, Nat.xor_comm d b, Nat.xor_comm c a, ← Nat.xor_assoc a b d,
    show b ^^^ (a ^^^ c) = a ^^^ b ^^^ c by rw [← Nat.xor_assoc, Nat.xor_comm b a]]

/-! ## XOshiro256: Jump and LongJump -/

theorem longJumpBits_lt : ∀ w ∈ longJumpBits, w < 2 ^ 64 := by decide

theorem longJump_eq_poly (s : XOshiro256Source) :
    XOshiro256Source.LongJump s =
      (polyApply 256 (tablePoly longJumpBits) s, advanceN XOshiro256Source.Uint64 256 s) :=
  jumpLoop_eq longJumpBits longJumpBits_lt s

theorem jumpSpec_upto (tbl : List Nat) (p : Nat)
    (hp : ∀ k < 256, p.testBit k = (tbl.getD (k / 64) 0).testBit (k % 64))
    (s : XOshiro256Source) (n : Nat) (hn : n ≤ 256) :
    (List.range n).foldl
      (fun acc k =>
        if (tbl.getD (k / 64) 0).testBit (k % 64) then
          acc.xor (advanceN XOshiro256Source.Uint64 k s)
        else acc)
      XOshiro256Source.zero = polyApply n p s := by
  induction n with
  | zero => rfl
  | succ n ih =>
    rw [List.range_succ, List.foldl_append, ih (by omega), List.foldl_cons, List.foldl_nil,
      polyApply_snoc, hp n (by omega)]
    split
    · rfl
    · rw [xo_xor_zero]

theorem jumpBits_testBit :
    ∀ k < 256, (tablePoly jumpBits).testBit k =
      (([0x180ec6d33cfd0aba, 0xd5a61266f0c9392c, 0xa9582618e03fc9aa,
        0x39abdc4529b1661c] : List Nat).getD (k / 64) 0).testBit (k % 64) := by
  decide!

theorem longJumpBits_testBit :
    ∀ k < 256, (tablePoly longJumpBits).testBit k =
      (([0x76e15d3efefdcbbf, 0xc5004e441c522fb3, 0x77710069854ee241,
        0x39109bb02acbe635] : List Nat).getD (k / 64) 0).testBit (k % 64) := by
  decide!

/-- C13: for every XOshiro256 state `s`, the state returned by `Jump` is the word-wise xor
of the states reached after `k` transitions over exactly the `k` in `0..255` whose bit
`k mod 64` of word `k div 64` of the table `{0x180ec6d33cfd0aba, 0xd5a61266f0c9392c,
0xa9582618e03fc9aa, 0x39abdc4529b1661c}` is set, and the state returned by `LongJump` is the
same xor over the table `{0x76e15d3efefdcbbf, 0xc5004e441c522fb3, 0x77710069854ee241,
0x39109bb02acbe635}`. -/
theorem jump_is_xor_over_table (s : XOshiro256Source) :
    (XOshiro256Source.Jump s).1 =
        jumpSpec [0x180ec6d33cfd0aba, 0xd5a61266f0c9392c, 0xa9582618e03fc9aa,
          0x39abdc4529b1661c] s ∧
      (XOshiro256Source.LongJump s).1 =
        jumpSpec [0x76e15d3efefdcbbf, 0xc5004e441c522fb3, 0x77710069854ee241,
          0x39109bb02acbe635] s := by
  constructor
  · rw [jump_eq_poly]
    exact (jumpSpec_upto _ _ jumpBits_testBit s 256 (le_refl _)).symm
  · rw [longJump_eq_poly]
    exact (jumpSpec_upto _ _ longJumpBits_testBit s 256 (le_refl _)).symm

/-- C14: for every XOshiro256 state `s`, after `Jump` and after `LongJump` the receiver is
in the state reached from `s` by 256 successive `Uint64` calls, so both leave the receiver in
the same state. -/
theorem jump_receiver_advances_256 (s : XOshiro256Source) :
    (XOshiro256Source.Jump s).2 = advanceN XOshiro256Source.Uint64 256 s ∧
      (XOshiro256Source.LongJump s).2 = advanceN XOshiro256Source.Uint64 256 s ∧
      (XOshiro256Source.Jump s).2 = (XOshiro256Source.LongJump s).2 := by
  simp only [jump_eq_poly, longJump_eq_poly, and_self]

/-- C18: `Uint64` on the all-zero XOshiro256 state returns 0 and leaves the all-zero state,
so the first `n` draws from the all-zero state are all 0, for every `n`. -/
theorem xoshiro_zero_absorbing :
    XOshiro256Source.Uint64 ⟨0, 0, 0, 0⟩ = (0, ⟨0, 0, 0, 0⟩) ∧
      ∀ n, drawN XOshiro256Source.Uint64 n ⟨0, 0, 0, 0⟩ = List.replicate n 0 := by
  have h : XOshiro256Source.Uint64 ⟨0, 0, 0, 0⟩ = (0, ⟨0, 0, 0, 0⟩) := by decide
  refine ⟨h, fun n => ?_⟩
  induction n with
  | zero => rfl
  | succ n ih =>
    show (XOshiro256Source.Uint64 ⟨0, 0, 0, 0⟩).1 ::
        drawN XOshiro256Source.Uint64 n (XOshiro256Source.Uint64 ⟨0, 0, 0, 0⟩).2 = _
    rw [h, ih]
    rfl

/-- C20: for every XOshiro256 state `s` (four `uint64` words), `Jump` called on the state one
`Uint64` call after `s` returns the state one `Uint64` call after the state `Jump` returns on
`s`; the same holds for `LongJump`. -/
theorem jump_commutes_with_step (s : XOshiro256Source) (hs : s.WF) :
    (XOshiro256Source.Jump (XOshiro256Source.Uint64 s).2).1 =
        (XOshiro256Source.Uint64 (XOshiro256Source.Jump s).1).2 ∧
      (XOshiro256Source.LongJump (XOshiro256Source.Uint64 s).2).1 =
        (XOshiro256Source.Uint64 (XOshiro256Source.LongJump s).1).2 := by
  rw [jump_eq_poly, jump_eq_poly, longJump_eq_poly, longJump_eq_poly]
  exact ⟨polyApply_step 256 _ hs, polyApply_step 256 _ hs⟩

theorem jump_commutes_with_step_witness :
    (⟨1, 2, 3, 4⟩ : XOshiro256Source).WF ∧
      ((XOshiro256Source.Jump (XOshiro256Source.Uint64 ⟨1, 2, 3, 4⟩).2).1 =
          (XOshiro256Source.Uint64 (XOshiro256Source.Jump ⟨1, 2, 3, 4⟩).1).2 ∧
        (XOshiro256Source.LongJump (XOshiro256Source.Uint64 ⟨1, 2, 3, 4⟩).2).1 =
          (XOshiro256Source.Uint64 (XOshiro256Source.LongJump ⟨1, 2, 3, 4⟩).1).2) :=
  ⟨by decide, jump_commutes_with_step ⟨1, 2, 3, 4⟩ (by decide)⟩

/-! ## PCG: the output permutation -/

theorem rotateLeft64_neg (v r : Nat) (hv : v < 2 ^ 64) (hr : r < 64) :
    RotateLeft64 v (-(r : Int)) = rotr64 v r := by
  unfold RotateLeft64 rotr64
  rcases Nat.eq_zero_or_pos r with h0 | hpos
  · subst h0
    have e : ((-((0 : Nat) : Int)) % 64).toNat = 0 := by decide
    have h1 : v >>> 64 = 0 := by
      rw [Nat.shiftRight_eq_div_pow]
      exact Nat.div_eq_of_lt hv
    have h2 : (v <<< 64) % 2 ^ 64 = 0 := by
      rw [Nat.shiftLeft_eq]
      exact Nat.mul_mod_left _ _
    simp only [e, Nat.sub_zero, h1, h2, Nat.shiftLeft_zero, Nat.shiftRight_zero, Nat.or_zero,
      Nat.mod_eq_of_lt hv]
  · have e : ((-(r : Int)) % 64).toNat = 64 - r := by omega
    have e2 : 64 - (64 - r) = r := by omega
    simp only [e, e2]
    exact Nat.lor_comm _ _

/-- C15: for every PCG state of two `uint64` limbs, with `lo'` and `hi'` the limbs after the
multiply-add update of the call, `Uint64` returns the 64-bit right rotation of `hi' xor lo'`
by `r = hi' >> 58` positions, and `r` lies in `0..63`. -/
theorem pcg_output_spec (s : PCGSource) (hs : s.WF) :
    (PCGSource.Uint64 s).2 = PCGSource.add (PCGSource.mult s) ∧
      (PCGSource.Uint64 s).1 =
        rotr64 ((PCGSource.Uint64 s).2.hi ^^^ (PCGSource.Uint64 s).2.lo)
          ((PCGSource.Uint64 s).2.hi >>> 58) ∧
      (PCGSource.Uint64 s).2.hi >>> 58 < 64 := by
  obtain ⟨⟨hlo, hhi⟩, -⟩ := pcg_step_update s hs
  have hr : (PCGSource.Uint64 s).2.hi >>> 58 < 64 := by
    rw [Nat.shiftRight_eq_div_pow]
    omega
  refine ⟨rfl, ?_, hr⟩
  rw [← rotateLeft64_neg _ _ (Nat.xor_lt_two_pow hhi hlo) hr, Nat.xor_comm]
  rfl

theorem pcg_output_spec_witness :
    (⟨0xfedcba9876543210, 0x0123456789abcdef⟩ : PCGSource).WF ∧
      ((PCGSource.Uint64 ⟨0xfedcba9876543210, 0x0123456789abcdef⟩).2 =
          PCGSource.add (PCGSource.mult ⟨0xfedcba9876543210, 0x0123456789abcdef⟩) ∧
        (PCGSource.Uint64 ⟨0xfedcba9876543210, 0x0123456789abcdef⟩).1 =
          rotr64
            ((PCGSource.Uint64 ⟨0xfedcba9876543210, 0x0123456789abcdef⟩).2.hi ^^^
              (PCGSource.Uint64 ⟨0xfedcba9876543210, 0x0123456789abcdef⟩).2.lo)
            ((PCGSource.Uint64 ⟨0xfedcba9876543210, 0x0123456789abcdef⟩).2.hi >>> 58) ∧
        (PCGSource.Uint64 ⟨0xfedcba9876543210, 0x0123456789abcdef⟩).2.hi >>> 58 < 64) :=
  ⟨by decide, pcg_output_spec ⟨0xfedcba9876543210, 0x0123456789abcdef⟩ (by decide)⟩

/-! ## WyRand: the draw -/

/-- C16: for every WyRand state `w`, `Uint64` sets the state to
`w' = (w + 0xa0761d6478bd642f) mod 2^64` and returns `H xor L`, with
`P = (w' xor 0xe7037ed1a0b428db) * w'` the full product, `H = P div 2^64` and
`L = P mod 2^64`. -/
theorem wyrand_uint64_spec (w : WySource) :
    WySource.Uint64 w =
      (Nat.xor
          ((Nat.xor ((w + 0xa0761d6478bd642f) % 2 ^ 64) 0xe7037ed1a0b428db *
            ((w + 0xa0761d6478bd642f) % 2 ^ 64)) / 2 ^ 64)
          ((Nat.xor ((w + 0xa0761d6478bd642f) % 2 ^ 64) 0xe7037ed1a0b428db *
            ((w + 0xa0761d6478bd642f) % 2 ^ 64)) % 2 ^ 64),
        (w + 0xa0761d6478bd642f) % 2 ^ 64) := rfl

/-! ## Seeding expands a SplitMix64 stream -/

/-- C17: for every seed and every prior state, the state left by `XOshiro256Source.Seed` is
the first four values drawn from a SplitMix64 engine seeded with the same seed, in order, and
the state left by `PCGSource.Seed` is the first two: the low limb the first, the high limb
the second. -/
theorem seed_expands_splitmix (seed : Int) (p0 : SplitMix64Source) (p1 : XOshiro256Source)
    (p2 : PCGSource) :
    drawN SplitMix64Source.Uint64 4 (SplitMix64Source.Seed p0 seed) =
        [(XOshiro256Source.Seed p1 seed).s0, (XOshiro256Source.Seed p1 seed).s1,
          (XOshiro256Source.Seed p1 seed).s2, (XOshiro256Source.Seed p1 seed).s3] ∧
      drawN SplitMix64Source.Uint64 2 (SplitMix64Source.Seed p0 seed) =
        [(PCGSource.Seed p2 seed).lo, (PCGSource.Seed p2 seed).hi] :=
  ⟨rfl, rfl⟩

/-! ## SplitMix64: the output is a bijection of the state -/

theorem shiftRight_xor (z w k : Nat) : (z ^^^ w) >>> k = (z >>> k) ^^^ (w >>> k) := by
  apply Nat.eq_of_testBit_eq
  intro i
  simp only [Nat.testBit_shiftRight, Nat.testBit_xor]

theorem xorShift_inj {z w k : Nat} (hk : 0 < k) (h : z ^^^ (z >>> k) = w ^^^ (w >>> k)) :
    z = w := by
  have h1 : (z ^^^ w) ^^^ ((z ^^^ w) >>> k) = 0 := by
    rw [shiftRight_xor]
    generalize z >>> k = a at h ⊢
    generalize w >>> k = b at h ⊢
    have e : z ^^^ w ^^^ (a ^^^ b) = (z ^^^ a) ^^^ (w ^^^ b) := by ac_rfl
    rw [e, h, Nat.xor_self]
  exact Nat.xor_eq_zero.mp (xor_shiftRight_eq_zero hk h1)

theorem mul_odd_inj {y v c : Nat} (hc : Nat.Coprime (2 ^ 64) c) (hy : y < 2 ^ 64)
    (hv : v < 2 ^ 64) (h : (y * c) % 2 ^ 64 = (v * c) % 2 ^ 64) : y = v := by
  have h1 : Nat.ModEq (2 ^ 64) y v := Nat.ModEq.cancel_right_of_coprime hc h
  have h2 : y % 2 ^ 64 = v % 2 ^ 64 := h1
  rwa [Nat.mod_eq_of_lt hy, Nat.mod_eq_of_lt hv] at h2

theorem add_gamma_inj {x y : Nat} (hx : x < 2 ^ 64) (hy : y < 2 ^ 64)
    (h : (x + 0x9e3779b97f4a7c15) % 2 ^ 64 = (y + 0x9e3779b97f4a7c15) % 2 ^ 64) : x = y := by
  have h1 : Nat.ModEq (2 ^ 64) x y := Nat.ModEq.add_right_cancel' _ h
  have h2 : x % 2 ^ 64 = y % 2 ^ 64 := h1
  rwa [Nat.mod_eq_of_lt hx, Nat.mod_eq_of_lt hy] at h2

theorem splitmix_out_lt (x : Nat) : (SplitMix64Source.Uint64 x).1 < 2 ^ 64 := by
  simp only [SplitMix64Source.Uint64]
  exact xor_shiftRight_lt (Nat.mod_lt _ (by norm_num))

theorem splitmix_out_inj {x y : Nat} (hx : x < 2 ^ 64) (hy : y < 2 ^ 64)
    (h : (SplitMix64Source.Uint64 x).1 = (SplitMix64Source.Uint64 y).1) : x = y := by
  simp only [SplitMix64Source.Uint64] at h
  have hlt : ∀ t : Nat, t % 2 ^ 64 < 2 ^ 64 := fun t => Nat.mod_lt _ (by norm_num)
  have h1 := xorShift_inj (by norm_num) h
  have h2 := mul_odd_inj coprime_mix2 (xor_shiftRight_lt (hlt _)) (xor_shiftRight_lt (hlt _)) h1
  have h3 := xorShift_inj (by norm_num) h2
  have h4 := mul_odd_inj coprime_mix1 (xor_shiftRight_lt (hlt _)) (xor_shiftRight_lt (hlt _)) h3
  have h5 := xorShift_inj (by norm_num) h4
  exact add_gamma_inj hx hy h5

theorem splitmix_out_surj (v : Nat) (hv : v < 2 ^ 64) :
    ∃ x, x < 2 ^ 64 ∧ (SplitMix64Source.Uint64 x).1 = v := by
  let f : Fin (2 ^ 64) → Fin (2 ^ 64) := fun x =>
    ⟨(SplitMix64Source.Uint64 x.val).1, splitmix_out_lt x.val⟩
  have hinj : Function.Injective f := by
    intro a b hab
    have h1 : (SplitMix64Source.Uint64 a.val).1 = (SplitMix64Source.Uint64 b.val).1 :=
      congrArg Fin.val hab
    exact Fin.ext (splitmix_out_inj a.isLt b.isLt h1)
  obtain ⟨x, hx⟩ := Finite.injective_iff_surjective.mp hinj ⟨v, hv⟩
  exact ⟨x.val, x.isLt, congrArg Fin.val hx⟩

/-- C19: two distinct SplitMix64 states (`uint64` values) return different values from
`Uint64`; every 64-bit value is returned from exactly one state; and 0 is returned exactly
when the state after the increment is 0. -/
theorem splitmix_output_bijective :
    (∀ x y : Nat, x < 2 ^ 64 → y < 2 ^ 64 → x ≠ y →
      (SplitMix64Source.Uint64 x).1 ≠ (SplitMix64Source.Uint64 y).1) ∧
    (∀ v : Nat, v < 2 ^ 64 → ∃! x, x < 2 ^ 64 ∧ (SplitMix64Source.Uint64 x).1 = v) ∧
    (∀ x : Nat, (SplitMix64Source.Uint64 x).1 = 0 ↔ (SplitMix64Source.Uint64 x).2 = 0) := by
  refine ⟨fun x y hx hy hne h => hne (splitmix_out_inj hx hy h), fun v hv => ?_, fun x => ?_⟩
  · obtain ⟨x, hx, hxv⟩ := splitmix_out_surj v hv
    exact ⟨x, ⟨hx, hxv⟩, fun y hy => splitmix_out_inj hy.1 hx (hy.2.trans hxv.symm)⟩
  · constructor
    · exact splitmix_out_eq_zero
    · intro h
      have e : (SplitMix64Source.Uint64 x).2 = ((x + 0x9e3779b97f4a7c15) % 2 ^ 64 : Nat) := rfl
      rw [e] at h
      simp only [SplitMix64Source.Uint64, h]
      decide

theorem splitmix_output_bijective_witness :
    (SplitMix64Source.Uint64 1).1 ≠ (SplitMix64Source.Uint64 2).1 :=
  splitmix_output_bijective.1 1 2 (by decide) (by decide) (by decide)

/-! ## PCG: the period -/

theorem geomSum_succ (m n : Nat) : geomSum m (n + 1) = m * geomSum m n + 1 := rfl

theorem pow_eq_geomSum (d n : Nat) : (d + 1) ^ n = 1 + d * geomSum (d + 1) n := by
  induction n with
  | zero => rfl
  | succ n ih =>
    rw [geomSum_succ, Nat.pow_succ, ih]
    ring

theorem geomSum_add (m a b : Nat) :
    geomSum m (a + b) = geomSum m a + m ^ a * geomSum m b := by
  induction a with
  | zero => rw [Nat.zero_add, Nat.pow_zero, Nat.one_mul]; show _ = 0 + _; rw [Nat.zero_add]
  | succ a ih =>
    rw [show a + 1 + b = (a + b) + 1 by omega, geomSum_succ, geomSum_succ, ih, Nat.pow_succ]
    ring

theorem geomSum_double (m t : Nat) : geomSum m (2 * t) = geomSum m t * (1 + m ^ t) := by
  rw [Nat.two_mul, geomSum_add]
  ring

theorem geomSum_parity {m : Nat} (hm : m % 2 = 1) (n : Nat) : geomSum m n % 2 = n % 2 := by
  induction n with
  | zero => rfl
  | succ n ih =>
    rw [geomSum_succ, Nat.add_mod, Nat.mul_mod, hm, ih]
    omega

theorem pow_mod_four {m : Nat} (hm : m % 4 = 1) (n : Nat) : m ^ n % 4 = 1 := by
  induction n with
  | zero => rfl
  | succ n ih => rw [Nat.pow_succ, Nat.mul_mod, ih, hm]

theorem two_pow_succ_dvd_two_mul (k x : Nat) : 2 ^ (k + 1) ∣ 2 * x ↔ 2 ^ k ∣ x := by
  rw [Nat.pow_succ, Nat.mul_comm (2 ^ k) 2]
  exact Nat.mul_dvd_mul_iff_left (by norm_num)

theorem coprime_two_pow_of_odd {u : Nat} (hu : u % 2 = 1) (k : Nat) : Nat.Coprime (2 ^ k) u := by
  apply Nat.Coprime.pow_left
  exact Nat.coprime_two_left.mpr (Nat.odd_iff.mpr hu)

/-- For a multiplier congruent to 1 modulo 4, a power of two divides the geometric sum of
length `n` exactly when it divides `n`. -/
theorem two_pow_dvd_geomSum {m : Nat} (hm : m % 4 = 1) (k n : Nat) :
    2 ^ k ∣ geomSum m n ↔ 2 ^ k ∣ n := by
  induction k generalizing n with
  | zero => simp
  | succ k ih =>
    have hm2 : m % 2 = 1 := by omega
    rcases Nat.mod_two_eq_zero_or_one n with h0 | h1
    · obtain ⟨t, rfl⟩ : ∃ t, n = 2 * t := ⟨n / 2, by omega⟩
      have hp := pow_mod_four hm t
      obtain ⟨u, hu, hodd⟩ : ∃ u, 1 + m ^ t = 2 * u ∧ u % 2 = 1 :=
        ⟨(1 + m ^ t) / 2, by omega, by omega⟩
      rw [geomSum_double, hu, show geomSum m t * (2 * u) = 2 * (geomSum m t * u) by ring,
        two_pow_succ_dvd_two_mul, two_pow_succ_dvd_two_mul,
        (coprime_two_pow_of_odd hodd k).dvd_mul_right, ih]
    · have hg := geomSum_parity hm2 n
      have h2 : (2 : Nat) ∣ 2 ^ (k + 1) := dvd_pow_self 2 (Nat.succ_ne_zero k)
      constructor
      · intro h
        have := Nat.dvd_trans h2 h
        omega
      · intro h
        have := Nat.dvd_trans h2 h
        omega

theorem mod_add_mul_eq_iff {N S x : Nat} (hS : S < N) : (S + x) % N = S ↔ N ∣ x := by
  constructor
  · intro h
    have h1 : Nat.ModEq N (S + x) (S + 0) := by
      show (S + x) % N = (S + 0) % N
      rw [Nat.add_zero, Nat.mod_eq_of_lt hS, h]
    exact Nat.modEq_zero_iff_dvd.mp (Nat.ModEq.add_left_cancel' S h1)
  · rintro ⟨q, rfl⟩
    rw [Nat.add_mul_mod_self_left, Nat.mod_eq_of_lt hS]

/-- A linear congruential step modulo `2 ^ k` with multiplier congruent to 1 modulo 4 and odd
increment returns to its start after `n` steps exactly when `2 ^ k` divides `n`. -/
theorem lcg_return_iff {m c : Nat} (hm : m % 4 = 1) (hc : c % 2 = 1) (k S n : Nat)
    (hS : S < 2 ^ k) :
    (S * m ^ n + c * geomSum m n) % 2 ^ k = S ↔ 2 ^ k ∣ n := by
  obtain ⟨d, rfl⟩ : ∃ d, m = d + 1 := ⟨m - 1, by omega⟩
  have hd : d % 2 = 0 := by omega
  have hodd : (d * S + c) % 2 = 1 := by
    rw [Nat.add_mod, Nat.mul_mod, hd, hc]
    simp
  have e : S * (d + 1) ^ n + c * geomSum (d + 1) n = S + geomSum (d + 1) n * (d * S + c) := by
    rw [pow_eq_geomSum]
    ring
  rw [e, mod_add_mul_eq_iff hS, (coprime_two_pow_of_odd hodd k).dvd_mul_right,
    two_pow_dvd_geomSum hm]

theorem pcgMultiplier_mod : pcgMultiplier % 4 = 1 := by decide

theorem pcgIncrement_mod : pcgIncrement % 2 = 1 := by decide

theorem pcg_toNat_lt {s : PCGSource} (hs : s.WF) : s.toNat < 2 ^ 128 := by
  obtain ⟨lo, hi⟩ := s
  obtain ⟨h1, h2⟩ := hs
  simp only [PCGSource.toNat] at *
  omega

theorem pcg_toNat_inj {a b : PCGSource} (ha : a.WF) (hb : b.WF) (h : a.toNat = b.toNat) :
    a = b := by
  obtain ⟨alo, ahi⟩ := a
  obtain ⟨blo, bhi⟩ := b
  obtain ⟨h1, h2⟩ := ha
  obtain ⟨h3, h4⟩ := hb
  simp only [PCGSource.toNat] at *
  have e1 : alo = blo := by omega
  have e2 : ahi = bhi := by omega
  rw [e1, e2]

theorem pcg_advance_succ_last (n : Nat) (s : PCGSource) :
    advanceN PCGSource.Uint64 (n + 1) s =
      (PCGSource.Uint64 (advanceN PCGSource.Uint64 n s)).2 := by
  rw [advanceN_add]
  rfl

theorem pcg_advance (n : Nat) (s : PCGSource) (hs : s.WF) :
    (advanceN PCGSource.Uint64 n s).WF ∧
      (advanceN PCGSource.Uint64 n s).toNat =
        (s.toNat * pcgMultiplier ^ n + pcgIncrement * geomSum pcgMultiplier n) % 2 ^ 128 := by
  induction n with
  | zero =>
    refine ⟨hs, ?_⟩
    show s.toNat = (s.toNat * pcgMultiplier ^ 0 + pcgIncrement * 0) % 2 ^ 128
    rw [Nat.pow_zero, Nat.mul_one, Nat.mul_zero, Nat.add_zero, Nat.mod_eq_of_lt (pcg_toNat_lt hs)]
  | succ n ih =>
    obtain ⟨hwf, hval⟩ := ih
    obtain ⟨hwf1, hval1⟩ := pcg_step_update _ hwf
    rw [pcg_advance_succ_last]
    refine ⟨hwf1, ?_⟩
    rw [hval1, hval, geomSum_succ, pow_succ pcgMultiplier n]
    generalize pcgMultiplier = M
    generalize pcgIncrement = C
    generalize geomSum M n = G
    generalize s.toNat = S
    generalize M ^ n = P
    have h1 : Nat.ModEq (2 ^ 128) ((S * P + C * G) % 2 ^ 128 * M + C) ((S * P + C * G) * M + C) :=
      Nat.ModEq.add_right _ (Nat.ModEq.mul_right _ (Nat.mod_modEq _ _))
    have h2 : (S * P + C * G) * M + C = S * (P * M) + C * (M * G + 1) := by ring
    rw [← h2]
    exact h1

/-- C11: for every PCG state `x` (two `uint64` limbs) and every `n`, the state after `n`
successive `Uint64` calls from `x` is `x` exactly when `n` is a multiple of `2 ^ 128`. -/
theorem pcg_period (x : PCGSource) (n : Nat) (hx : x.WF) :
    advanceN PCGSource.Uint64 n x = x ↔ 2 ^ 128 ∣ n := by
  obtain ⟨hwf, hval⟩ := pcg_advance n x hx
  rw [← lcg_return_iff pcgMultiplier_mod pcgIncrement_mod 128 x.toNat n (pcg_toNat_lt hx), ← hval]
  constructor
  · intro h
    rw [h]
  · intro h
    exact pcg_toNat_inj hwf hx h

theorem pcg_period_witness :
    (⟨0xfedcba9876543210, 0x0123456789abcdef⟩ : PCGSource).WF ∧
      (advanceN PCGSource.Uint64 3 ⟨0xfedcba9876543210, 0x0123456789abcdef⟩ =
          ⟨0xfedcba9876543210, 0x0123456789abcdef⟩ ↔ 2 ^ 128 ∣ 3) :=
  ⟨by decide, pcg_period ⟨0xfedcba9876543210, 0x0123456789abcdef⟩ 3 (by decide)⟩

end Rand
